import Mathlib

/-!
# cicd-operator: configuration dispatch, scheduler, job pool and fake git client

A shallow embedding of the configuration handling code of the operator
(`controllers/configmap_controller.go`, `internal/configs/controller.go`),
of the trigger of the scheduler (`pkg/scheduler/scheduler.go`), of the job pool
exercised by `pkg/scheduler/pool/pool_test.go` and of the repository operations of
the fake git client (`pkg/git/fake/fake.go`), followed by theorems about them.

Conventions of the embedding:

* Go pointers to package-level variables are addresses (`Ptr`) into a typed
  `Store`; a `nil` pointer is `none`.
* Go `int` is the 64-bit signed integer; values are `Int` and the only place
  where the width matters (`strconv.Atoi`) checks the range explicitly.
* A Go `map[string]string` that is only read is its lookup function
  `String → Option String`.
* A Go `map[string]operatorConfig` that is ranged over is the list of its
  entries in the order the iteration visits them (Go leaves it unspecified).
* A buffered Go channel is its length and capacity (or its queued values);
  goroutines running at the same time are an interleaving of atomic steps, one
  per statement.
-/

namespace CicdOperator

/-! ## Go standard library functions used by the code -/

/-- Value of a run of ASCII decimal digits read left to right, starting from the
accumulator `acc`; `none` as soon as a byte is not in `'0'..'9'`. -/
def parseDigits : List Char → Nat → Option Nat
  | [], acc => some acc
  | c :: cs, acc =>
    if 48 ≤ c.toNat ∧ c.toNat ≤ 57 then parseDigits cs (acc * 10 + (c.toNat - 48))
    else none

/-- Go `strconv.Atoi` on a 64-bit platform: an optional sign `+` or `-`, then at
least one decimal digit and nothing else; the value must fit the `int` type.
`none` stands for a non-nil `error` (syntax or range). -/
def Atoi (s : String) : Option Int :=
  match s.data with
  | [] => none
  | c :: cs =>
    let digits := if c = '-' ∨ c = '+' then cs else c :: cs
    match digits with
    | [] => none
    | d :: ds =>
      match parseDigits (d :: ds) 0 with
      | none => none
      | some n =>
        if c = '-' then
          if n ≤ 2 ^ 63 then some (-(n : Int)) else none
        else
          if n < 2 ^ 63 then some (n : Int) else none

/-- Go `<` on strings: lexicographic comparison of the bytes, which for UTF-8
text is the lexicographic comparison of the code points. -/
def strLess (a b : String) : Bool := decide (a.data < b.data)

/-- Lower-case mapping of one rune as `unicode.ToLower` computes it, restricted
to what can produce an ASCII letter: `A..Z`, `U+0130` (to `i`) and `U+212A` (to
`k`). Every other rune either is unchanged or maps to a non-ASCII rune, which is
immaterial for a comparison with an ASCII word, and is left unchanged here. -/
def toLowerRune (c : Char) : Char :=
  if 65 ≤ c.toNat ∧ c.toNat ≤ 90 then Char.ofNat (c.toNat + 32)
  else if c.toNat = 0x130 then 'i'
  else if c.toNat = 0x212A then 'k'
  else c

/-- Go `strings.ToLower`. -/
def ToLower (s : String) : String := ⟨s.data.map toLowerRune⟩

/-! ## Settings store -/

/-- Address of a package-level variable. -/
abbrev Ptr := Nat

/-- Typed memory holding the package-level settings: Go pointers of different
element types never alias, pointers of the same type alias iff equal. -/
structure Store where
  strs : Ptr → String
  ints : Ptr → Int
  bools : Ptr → Bool

/-- Assignment `*p = v` through a `*string`. -/
def Store.setStr (s : Store) (p : Ptr) (v : String) : Store :=
  { s with strs := fun q => if q = p then v else s.strs q }

/-- Assignment `*p = v` through a `*int`. -/
def Store.setInt (s : Store) (p : Ptr) (v : Int) : Store :=
  { s with ints := fun q => if q = p then v else s.ints q }

/-- Assignment `*p = v` through a `*bool`. -/
def Store.setBool (s : Store) (p : Ptr) (v : Bool) : Store :=
  { s with bools := fun q => if q = p then v else s.bools q }

/-! ## `getVars` (controllers/configmap_controller.go) -/

/-- Go `type cfgType int`. -/
abbrev cfgType := Nat

def cfgTypeString : cfgType := 0
def cfgTypeInt : cfgType := 1
def cfgTypeBool : cfgType := 2

/-- Go `operatorConfig`; the field `Type` is spelled `Typ`. Fields left out of a
composite literal hold the zero value (`none`, `""`, `0`, `false`). -/
structure operatorConfig where
  Typ : cfgType
  StringVal : Option Ptr := none
  StringDefault : String := ""
  IntVal : Option Ptr := none
  IntDefault : Int := 0
  BoolVal : Option Ptr := none
  BoolDefault : Bool := false
deriving DecidableEq, Repr

/-- Body of the `for key, c := range vars` loop of `getVars` for one entry. -/
def getVarsStep (data : String → Option String) (s : Store)
    (kc : String × operatorConfig) : Store :=
  let c := kc.2
  match data kc.1 with
  | none =>
    -- If not set, set as default
    if c.Typ = cfgTypeString then
      match c.StringVal with
      | none => s
      | some p => if c.StringDefault ≠ "" then s.setStr p c.StringDefault else s
    else if c.Typ = cfgTypeInt then
      match c.IntVal with
      | none => s
      | some p => s.setInt p c.IntDefault
    else if c.Typ = cfgTypeBool then
      match c.BoolVal with
      | none => s
      | some p => s.setBool p c.BoolDefault
    else s
  | some v =>
    -- If set, set value
    if c.Typ = cfgTypeString then
      match c.StringVal with
      | none => s
      | some p => if v ≠ "" then s.setStr p v else s
    else if c.Typ = cfgTypeInt then
      match c.IntVal with
      | none => s
      | some p =>
        match Atoi v with
        | none => s
        | some i => s.setInt p i
    else if c.Typ = cfgTypeBool then
      match c.BoolVal with
      | none => s
      | some p =>
        if ToLower v = "true" then s.setBool p true
        else if ToLower v = "false" then s.setBool p false
        else s
    else s

/-- Go `getVars(data, vars)`: `vars` lists the entries of the binding map in the
order the `range` loop visits them. The function has no result; its effect is
the new store. -/
def getVars (data : String → Option String) (vars : List (String × operatorConfig))
    (s : Store) : Store :=
  vars.foldl (getVarsStep data) s

/-! ## Package `configs` (internal/configs/controller.go) -/

/-- The part of a `corev1.ConfigMap` the code reads. -/
structure ConfigMap where
  Name : String
  ResourceVersion : String
  Data : String → Option String

namespace configs

/-! Addresses of the package-level variables (`&MaxPipelineRun`, ...). Variables
of one type get pairwise different addresses. -/

def MaxPipelineRun : Ptr := 0
def CollectPeriod : Ptr := 1
def IntegrationJobTTL : Ptr := 2

def EnableMail : Ptr := 0

def ExternalHostName : Ptr := 0
def CurrentExternalHostName : Ptr := 1
def ReportRedirectURITemplate : Ptr := 2
def SMTPHost : Ptr := 3
def SMTPUserSecret : Ptr := 4
def ApprovalRequestMailTitle : Ptr := 5
def ApprovalRequestMailContent : Ptr := 6
def ApprovalResultMailTitle : Ptr := 7
def ApprovalResultMailContent : Ptr := 8
def ExposeMode : Ptr := 9
def IngressClass : Ptr := 10
def IngressHost : Ptr := 11
def GitImage : Ptr := 12

/-- A buffered Go channel of `struct{}` seen through `len` and `cap`; the nil
channel has both zero. -/
structure Chan where
  len : Nat
  cap : Nat
deriving DecidableEq, Repr

/-- The statement `if len(ch) < cap(ch) { ch <- struct{}{} }`. -/
def Chan.trySend (c : Chan) : Chan :=
  if c.len < c.cap then { c with len := c.len + 1 } else c

/-- Package-level state of `configs`: the settings, the initialisation flag and
channel, the registered update channels and the channel heap they point into. -/
structure State where
  store : Store
  ControllerInitiated : Bool
  ControllerInitCh : Ptr
  controllerConfigUpdateChan : List Ptr
  chans : Ptr → Chan

/-- Non-blocking notification of the channel at address `p`. -/
def State.notify (st : State) (p : Ptr) : State :=
  { st with chans := fun q => if q = p then (st.chans p).trySend else st.chans q }

/-- Go `RegisterControllerConfigUpdateChan`. -/
def RegisterControllerConfigUpdateChan (ch : Ptr) (st : State) : State :=
  { st with controllerConfigUpdateChan := st.controllerConfigUpdateChan ++ [ch] }

/-- The binding table literal of `ApplyControllerConfigChange`, in source order. -/
def controllerVars : List (String × operatorConfig) :=
  [ ("maxPipelineRun", { Typ := cfgTypeInt, IntVal := some MaxPipelineRun, IntDefault := 5 }),
    ("enableMail", { Typ := cfgTypeBool, BoolVal := some EnableMail, BoolDefault := false }),
    ("externalHostName", { Typ := cfgTypeString, StringVal := some ExternalHostName }),
    ("exposeMode", { Typ := cfgTypeString, StringVal := some ExposeMode, StringDefault := "Ingress" }),
    ("reportRedirectUriTemplate", { Typ := cfgTypeString, StringVal := some ReportRedirectURITemplate }),
    ("smtpHost", { Typ := cfgTypeString, StringVal := some SMTPHost }),
    ("smtpUserSecret", { Typ := cfgTypeString, StringVal := some SMTPUserSecret }),
    ("collectPeriod", { Typ := cfgTypeInt, IntVal := some CollectPeriod, IntDefault := 120 }),
    ("integrationJobTTL", { Typ := cfgTypeInt, IntVal := some IntegrationJobTTL, IntDefault := 120 }),
    ("ingressClass", { Typ := cfgTypeString, StringVal := some IngressClass, StringDefault := "" }),
    ("ingressHost", { Typ := cfgTypeString, StringVal := some IngressHost, StringDefault := "" }),
    ("gitImage", { Typ := cfgTypeString, StringVal := some GitImage,
                   StringDefault := "docker.io/alpine/git:1.0.30" }) ]

/-- The condition of the `// Check SMTP config.s` test on a store. -/
def smtpInvalid (s : Store) : Bool :=
  s.bools EnableMail && (s.strs SMTPHost == "" || s.strs SMTPUserSecret == "")

/-- The message of the `fmt.Errorf` of the SMTP check. -/
def smtpError : String := "email is enaled but smtp access info. is not given"

/-- Go `ApplyControllerConfigChange(cm)` for a non-nil `cm`; `order` is the order
in which `getVars` visits the entries of the binding table (a permutation of
`controllerVars`). The result is the new package state and the returned `error`
(`none` for `nil`). The package's own `getVars` is not part of the sources at
hand; it is taken to be the one of `controllers/configmap_controller.go`, whose
`operatorConfig` literals it is called with. -/
def ApplyControllerConfigChange (order : List (String × operatorConfig))
    (cm : ConfigMap) (st : State) : State × Option String :=
  let st1 : State := { st with store := getVars cm.Data order st.store }
  -- Check SMTP config.s
  if smtpInvalid st1.store then (st1, some smtpError)
  else
    -- Init
    let st2 : State :=
      if ¬ st1.ControllerInitiated then
        ({ st1 with ControllerInitiated := true }).notify st1.ControllerInitCh
      else st1
    -- Notify channels (non-blocking way)
    (st2.controllerConfigUpdateChan.foldl State.notify st2, none)

end configs

/-! ## `ConfigReconciler.Reconcile` (controllers/configmap_controller.go) -/

/-- The `vars` literal of `ConfigReconciler.Reconcile`, in source order. -/
def reconcileVars : List (String × operatorConfig) :=
  [ ("maxPipelineRun", { Typ := cfgTypeInt, IntVal := some configs.MaxPipelineRun, IntDefault := 5 }),
    ("enableMail", { Typ := cfgTypeBool, BoolVal := some configs.EnableMail, BoolDefault := false }),
    ("externalHostName", { Typ := cfgTypeString, StringVal := some configs.ExternalHostName }),
    ("smtpHost", { Typ := cfgTypeString, StringVal := some configs.SMTPHost }),
    ("smtpUserSecret", { Typ := cfgTypeString, StringVal := some configs.SMTPUserSecret }) ]

/-- What a `Reconcile` call can change: the settings of package `configs`, and a
history of the calls that reached the settings application (`getVars` and the
SMTP check), recorded as the `ResourceVersion` of the resource they were made
with. The history is a trace kept for stating properties; `ConfigReconciler`
itself has the fields `client` and `Log` only and stores no version. -/
structure ReconcilerState where
  store : Store
  handled : List String

/-- Go `(r *ConfigReconciler) Reconcile(cm)`; `none` is the nil resource, `order`
the order in which `getVars` visits `vars`. -/
def Reconcile (order : List (String × operatorConfig)) (cm : Option ConfigMap)
    (st : ReconcilerState) : ReconcilerState × Option String :=
  match cm with
  | none => (st, none)
  | some cm =>
    let st1 : ReconcilerState :=
      { store := getVars cm.Data order st.store
        handled := st.handled ++ [cm.ResourceVersion] }
    -- Check SMTP config.s
    if configs.smtpInvalid st1.store then (st1, some configs.smtpError)
    else (st1, none)

/-- Successive deliveries of resources to `Reconcile`, as the loop of `watch`
makes them; returned errors are only logged there. -/
def reconcileAll (order : List (String × operatorConfig)) (cms : List ConfigMap)
    (st : ReconcilerState) : ReconcilerState :=
  cms.foldl (fun st cm => (Reconcile order (some cm) st).1) st

/-! ## Job pool (package `pkg/scheduler/pool`)

Only the test of this package is among the sources at hand; the pool itself is
modelled from the specification (sections 3, 4.1 and 4.2). -/

namespace pool

/-- Modelled from the spec: the lifecycle state of a work item (the field
`Status.State` of `IntegrationJob`, which the test sets but whose declaration is
missing): Pending, Running and the terminal states Completed and Failed. -/
inductive IntegrationJobState where
  | Pending
  | Running
  | Completed
  | Failed
deriving DecidableEq, Repr

/-- Modelled from the spec: the part of an `IntegrationJob` the pool looks at,
with the fields `jobForTest` fills in; the creation time is a point on an
integer time line. -/
structure IntegrationJob where
  Name : String
  Namespace : String
  CreationTimestamp : Int
  State : IntegrationJobState
deriving DecidableEq, Repr

/-- Modelled from the spec: the pool node (`JobNode` in the test), identity and
ordering key of a work item. -/
structure JobNode where
  Name : String
  Namespace : String
  CreationTimestamp : Int
deriving DecidableEq, Repr

/-- Identity of a work item: the composite key (namespace, name). -/
abbrev Identity := String × String

def JobNode.identity (n : JobNode) : Identity := (n.Namespace, n.Name)

def IntegrationJob.identity (j : IntegrationJob) : Identity := (j.Namespace, j.Name)

/-- The node wrapping a work item. -/
def IntegrationJob.node (j : IntegrationJob) : JobNode :=
  { Name := j.Name, Namespace := j.Namespace, CreationTimestamp := j.CreationTimestamp }

/-- Modelled from the spec: the missing `OrderedPool`, an identity-indexed
container of nodes kept in comparator order; here the list of its nodes in
iteration order. -/
abbrev OrderedPool := List JobNode

/-- Modelled from the spec: `Len()` of the missing `OrderedPool`, the count of
nodes held. -/
def OrderedPool.Len (p : OrderedPool) : Nat := p.length

/-- Modelled from the spec: `Remove(identity)` of the missing `OrderedPool`:
removes the node if present, no-op otherwise. -/
def OrderedPool.Remove (p : OrderedPool) (id : Identity) : OrderedPool :=
  p.filter (fun n => n.identity ≠ id)

/-- Modelled from the spec: insertion at the sorted position given by the
comparator (before the first node the new one compares less than), for the
missing `OrderedPool`. -/
def OrderedPool.insert (compare : JobNode → JobNode → Bool) (n : JobNode) :
    OrderedPool → OrderedPool
  | [] => [n]
  | x :: xs => if compare n x then n :: x :: xs else x :: OrderedPool.insert compare n xs

/-- Modelled from the spec: `Sync(node)` of the missing `OrderedPool`: a node
with the same identity is removed first, the new node is re-inserted at its
sorted position; also returns whether the content changed. -/
def OrderedPool.Sync (compare : JobNode → JobNode → Bool) (p : OrderedPool) (n : JobNode) :
    OrderedPool × Bool :=
  let q := OrderedPool.insert compare n (p.Remove n.identity)
  (q, decide (q ≠ p))

/-- Modelled from the spec: the missing `JobPool`, one pending and one running
`OrderedPool`. -/
structure JobPool where
  pending : OrderedPool
  running : OrderedPool
deriving DecidableEq, Repr

/-- Modelled from the spec: the missing constructor `New` of `JobPool` as far as
the pools go: both are empty. -/
def New : JobPool := { pending := [], running := [] }

/-- Modelled from the spec: the missing `JobPool.SyncJob`: a Pending item is
put in the pending pool and removed from the running one, a Running item the
other way round, an item in any other state is removed from both. The trigger
sent to the scheduler on a change is not modelled. -/
def JobPool.SyncJob (compare : JobNode → JobNode → Bool) (p : JobPool)
    (job : IntegrationJob) : JobPool :=
  match job.State with
  | .Pending =>
    { pending := (OrderedPool.Sync compare p.pending job.node).1
      running := p.running.Remove job.identity }
  | .Running =>
    { pending := p.pending.Remove job.identity
      running := (OrderedPool.Sync compare p.running job.node).1 }
  | _ =>
    { pending := p.pending.Remove job.identity
      running := p.running.Remove job.identity }

/-- A sequence of `SyncJob` calls on a fresh pool. -/
def syncAll (compare : JobNode → JobNode → Bool) (jobs : List IntegrationJob) : JobPool :=
  jobs.foldl (JobPool.SyncJob compare) New

/-- Go `testCompare` of pool_test.go on two non-nil `*JobNode`:
`a.CreationTimestamp.Time.Before(b.CreationTimestamp.Time) ||
fmt.Sprintf("%s_%s", a.Namespace, a.Name) < fmt.Sprintf("%s_%s", b.Namespace, b.Name)`. -/
def testCompare (a b : JobNode) : Bool :=
  decide (a.CreationTimestamp < b.CreationTimestamp) ||
    strLess (a.Namespace ++ "_" ++ a.Name) (b.Namespace ++ "_" ++ b.Name)

/-- Go `jobForTest(name, namespace, created)`. -/
def jobForTest (name namespace_ : String) (created : Int) : IntegrationJob :=
  { Name := name, Namespace := namespace_, CreationTimestamp := created, State := .Pending }

end pool

/-! ## Notions used to state the properties -/

/-- Decimal text of a natural number: most significant digit first, `"0"` for
zero, no leading zeros otherwise. -/
def decimalNat (n : Nat) : List Char :=
  if n = 0 then ['0'] else ((Nat.digits 10 n).map Nat.digitChar).reverse

/-- Decimal text of an integer, as Go `strconv.Itoa` writes it: a minus sign for
a negative number, then the decimal text of the absolute value. -/
def decimalText (n : Int) : String :=
  if n < 0 then ⟨'-' :: decimalNat n.natAbs⟩ else ⟨decimalNat n.natAbs⟩

/-- Go `int` on a 64-bit platform. -/
def IsGoInt (n : Int) : Prop := -(2 : Int) ^ 63 ≤ n ∧ n < (2 : Int) ^ 63

instance (n : Int) : Decidable (IsGoInt n) := by unfold IsGoInt; infer_instance

/-- Upper-case form of an ASCII lower-case letter; other runes unchanged. -/
def upperAscii (c : Char) : Char :=
  if 97 ≤ c.toNat ∧ c.toNat ≤ 122 then Char.ofNat (c.toNat - 32) else c

/-- `v` is a letter-case variant of the lower-case ASCII word `w`: same length,
and each rune of `v` is the rune of `w` at its place or its upper-case form. -/
def IsCaseVariant (v w : String) : Prop :=
  List.Forall₂ (fun a b => a = b ∨ a = upperAscii b) v.data w.data

/-- A settings variable: the address of a Go variable together with its type. -/
inductive Var where
  | str (p : Ptr)
  | int (p : Ptr)
  | bool (p : Ptr)
deriving DecidableEq, Repr

/-- A value of one of the three kinds of settings. -/
inductive Value where
  | str (v : String)
  | int (v : Int)
  | bool (v : Bool)
deriving DecidableEq, Repr

/-- Reading a settings variable. -/
def Store.read (s : Store) : Var → Value
  | .str p => .str (s.strs p)
  | .int p => .int (s.ints p)
  | .bool p => .bool (s.bools p)

/-- The variable a binding is bound to: the pointer its `Type` selects, if that
pointer is not nil. A binding with another `Type` value is bound to nothing. -/
def operatorConfig.var (c : operatorConfig) : Option Var :=
  if c.Typ = cfgTypeString then c.StringVal.map Var.str
  else if c.Typ = cfgTypeInt then c.IntVal.map Var.int
  else if c.Typ = cfgTypeBool then c.BoolVal.map Var.bool
  else none

/-- The default of a binding, of the kind its `Type` selects. -/
def operatorConfig.default (c : operatorConfig) : Value :=
  if c.Typ = cfgTypeString then .str c.StringDefault
  else if c.Typ = cfgTypeInt then .int c.IntDefault
  else .bool c.BoolDefault

/-- A binding declares no default when the default field of its kind was left
at the zero value (`""`, `0`, `false`), which is all a Go value can tell. -/
def operatorConfig.NoDefault (c : operatorConfig) : Prop :=
  c.default = .str "" ∨ c.default = .int 0 ∨ c.default = .bool false

instance (c : operatorConfig) : Decidable c.NoDefault := by
  unfold operatorConfig.NoDefault; infer_instance

/-- The bindings whose default `getVars` assigns when the key is absent: every
integer and boolean binding, and a string binding whose default is not the empty
string. A string binding written with `StringDefault: ""` (as `ingressClass` and
`ingressHost` are) is not among them. -/
def operatorConfig.AssignsDefault (c : operatorConfig) : Prop :=
  c.default ≠ .str ""

instance (c : operatorConfig) : Decidable c.AssignsDefault := by
  unfold operatorConfig.AssignsDefault; infer_instance

/-- The variable `x` is bound by no entry of the table other than `e`: the keys
of the table are bound to different variables as far as `x` goes. -/
def Exclusive (vars : List (String × operatorConfig)) (e : String × operatorConfig)
    (x : Var) : Prop :=
  ∀ kc ∈ vars, kc.2.var = some x → kc = e

/-- The text of a present field is malformed for the binding: an integer field
whose text `strconv.Atoi` rejects, or a boolean field whose text is neither
`true` nor `false` in any letter case. -/
def Malformed (c : operatorConfig) (v : String) : Prop :=
  (c.Typ = cfgTypeInt ∧ Atoi v = none) ∨
    (c.Typ = cfgTypeBool ∧ ¬ IsCaseVariant v "true" ∧ ¬ IsCaseVariant v "false")

/-- A store with every string empty, every integer zero and every flag false:
the settings of a process that has applied no configuration yet. -/
def zeroStore : Store := { strs := fun _ => "", ints := fun _ => 0, bools := fun _ => false }

/-- A Go map literal `map[string]string{...}` as a lookup function. -/
def mapOf : List (String × String) → String → Option String
  | [], _ => none
  | (k, v) :: rest, q => if q = k then some v else mapOf rest q

/-- A lower-case ASCII letter that no rune other than itself and its upper-case
form lower-cases to (`i` and `k` are the exceptions). -/
def plainLower (b : Char) : Prop := 97 ≤ b.toNat ∧ b.toNat ≤ 122 ∧ b ≠ 'i' ∧ b ≠ 'k'

instance (b : Char) : Decidable (plainLower b) := by unfold plainLower; infer_instance

namespace pool

/-- The state with which an identity was last synced in a sequence of `SyncJob`
calls, if it was synced at all. -/
def lastState (jobs : List IntegrationJob) (id : Identity) : Option IntegrationJobState :=
  ((jobs.filter (fun j => decide (j.identity = id))).getLast?).map (fun j => j.State)

/-- The distinct identities whose last synced state is non-terminal (Pending or
Running). -/
def activeIdentities (jobs : List IntegrationJob) : List Identity :=
  (jobs.map IntegrationJob.identity).dedup.filter
    (fun id => decide (lastState jobs id = some .Pending ∨ lastState jobs id = some .Running))

/-- The seven jobs of `TestJobPool_SyncJob`, all created at the same instant. -/
def testJobs : List IntegrationJob :=
  [ jobForTest "1" "default" 0, jobForTest "2" "default" 0, jobForTest "3" "default" 0,
    jobForTest "4" "default" 0, jobForTest "5" "default" 0, jobForTest "6" "default" 0,
    jobForTest "6" "l2c-system" 0 ]

end pool

/-- The resource of the sub-test `same-resource-version`: version `11111`, no data. -/
def testConfigMap : ConfigMap :=
  { Name := "test-cm", ResourceVersion := "11111", Data := mapOf [] }

/-- A resource carrying the same version as `testConfigMap` with one field set. -/
def testConfigMapThree : ConfigMap :=
  { Name := "test-cm", ResourceVersion := "11111", Data := mapOf [("maxPipelineRun", "3")] }

/-- A fresh reconciler: no configuration applied, nothing handled. -/
def freshReconciler : ReconcilerState := { store := zeroStore, handled := [] }

/-- A fresh `configs` package state: nothing applied, not initiated, the init
channel at address 0 with capacity 1, no update channel registered. -/
def configs.freshState : configs.State :=
  { store := zeroStore, ControllerInitiated := false, ControllerInitCh := 0,
    controllerConfigUpdateChan := [], chans := fun _ => { len := 0, cap := 1 } }

/-! ## Runs of the `configs` package -/

namespace configs

/-- Number of tokens a call put on the channel at `p`: the growth of its length
between the state before and the state after the call (a call only sends). -/
def tokensSent (p : Ptr) (before after : State) : Nat :=
  (after.chans p).len - (before.chans p).len

/-- A consumer takes one token off the channel at `p`, if there is one. -/
def State.receive (st : State) (p : Ptr) : State :=
  { st with chans := fun q =>
      if q = p then { len := (st.chans p).len - 1, cap := (st.chans p).cap } else st.chans q }

/-- What can happen to the package state: a call of
`ApplyControllerConfigChange` (with the order in which its table is visited), a
receive by a consumer of some channel, a registration of an update channel. -/
inductive Event where
  | apply (order : List (String × operatorConfig)) (cm : ConfigMap)
  | receive (p : Ptr)
  | register (p : Ptr)

/-- Effect of one event on the package state. -/
def State.step (st : State) : Event → State
  | .apply order cm => (ApplyControllerConfigChange order cm st).1
  | .receive p => st.receive p
  | .register p => RegisterControllerConfigUpdateChan p st

/-- Tokens the event put on the channel at `p`; only calls of
`ApplyControllerConfigChange` send. -/
def State.sentBy (st : State) (p : Ptr) : Event → Nat
  | .apply order cm => tokensSent p st (ApplyControllerConfigChange order cm st).1
  | _ => 0

/-- Total number of tokens the calls of a run put on the channel at `p`. -/
def sentDuring (p : Ptr) : List Event → State → Nat
  | [], _ => 0
  | e :: es, st => st.sentBy p e + sentDuring p es (st.step e)

/-- The channels `chs` are registered one after the other through
`RegisterControllerConfigUpdateChan`. -/
def registerAll (chs : List Ptr) (st : State) : State :=
  chs.foldl (fun s ch => RegisterControllerConfigUpdateChan ch s) st

/-- The channels a passing call offers a token to, in order: `ControllerInitCh`
if the package is not yet initiated, then every registered update channel. -/
def State.offers (st : State) : List Ptr :=
  (if st.ControllerInitiated then [] else [st.ControllerInitCh]) ++ st.controllerConfigUpdateChan

end configs

/-! ## Scheduler (pkg/scheduler/scheduler.go) -/

namespace scheduler

/-- A buffered Go `chan int`: the queued values, oldest first, and the capacity. -/
structure IntChan where
  buf : List Int
  cap : Nat
deriving DecidableEq, Repr

/-- Go `Scheduler` as far as `Schedule` goes: the trigger channel `caller`
(`k8sClient` and `scheme` are not touched). -/
structure Scheduler where
  caller : IntChan
deriving DecidableEq, Repr

/-- Go `New`: `caller: make(chan int, 1)`. -/
def New : Scheduler := { caller := { buf := [], cap := 1 } }

/-- Go `Schedule()` run by one caller without interference: return if
`len(s.caller) == cap(s.caller)`, otherwise `s.caller <- 1`. -/
def Schedule (s : Scheduler) : Scheduler :=
  -- Exit if channel buffer is full
  if s.caller.buf.length = s.caller.cap then s
  else { caller := { s.caller with buf := s.caller.buf ++ [1] } }

/-- Where a caller stands inside `Schedule`: before the test of the buffer, at
the send statement (the test found room), or returned. -/
inductive Pc where
  | entry
  | send
  | returned
deriving DecidableEq, Repr

/-- Several goroutines inside `Schedule` on one scheduler, and the dispatch loop
of `start`: `loopBusy` holds while the loop is between two receives (in `fifo`
or in `time.Sleep`). -/
structure Callers where
  sched : Scheduler
  pcs : List Pc
  loopBusy : Bool
deriving DecidableEq, Repr

/-- Caller `i` executes its next statement, each statement being atomic as Go
channel operations are: at `entry` the test `len(s.caller) == cap(s.caller)`, at
`send` the statement `s.caller <- 1`, which cannot proceed while the buffer is
full (the state is then left as it is). -/
def Callers.step (w : Callers) (i : Nat) : Callers :=
  match w.pcs.get? i with
  | some .entry =>
    if w.sched.caller.buf.length = w.sched.caller.cap then
      { w with pcs := w.pcs.set i .returned }
    else { w with pcs := w.pcs.set i .send }
  | some .send =>
    if w.sched.caller.buf.length < w.sched.caller.cap then
      { w with
        sched := { caller := { w.sched.caller with buf := w.sched.caller.buf ++ [1] } }
        pcs := w.pcs.set i .returned }
    else w
  | _ => w

/-- The dispatch loop takes its next step: when idle it receives a token if one
is queued and starts a pass, when busy it ends the pass and the sleep. -/
def Callers.loopStep (w : Callers) : Callers :=
  if w.loopBusy then { w with loopBusy := false }
  else
    match w.sched.caller.buf with
    | [] => w
    | _ :: rest => { w with sched := { caller := { w.sched.caller with buf := rest } }, loopBusy := true }

/-- Caller `i` is blocked: it stands at `s.caller <- 1` and the buffer is full. -/
def Callers.blocked (w : Callers) (i : Nat) : Bool :=
  decide (w.pcs.get? i = some Pc.send) && !decide (w.sched.caller.buf.length < w.sched.caller.cap)

/-- A step of an interleaving: caller `i` moves, or the dispatch loop does. -/
inductive Move where
  | caller (i : Nat)
  | loop
deriving DecidableEq, Repr

/-- Runs an interleaving. -/
def Callers.run (w : Callers) (moves : List Move) : Callers :=
  moves.foldl (fun w m => match m with
    | .caller i => w.step i
    | .loop => w.loopStep) w

/-- Three goroutines entering `Schedule` on a new scheduler whose loop is idle. -/
def threeCallers : Callers :=
  { sched := New, pcs := [.entry, .entry, .entry], loopBusy := false }

end scheduler

/-! ## Dispatch pass (package `pkg/scheduler`)

`Scheduler.start` calls `s.fifo()`, which is not among the sources at hand; the
admission policy of a dispatch pass is modelled from the specification (section
4.3). -/

namespace pool

/-- Modelled from the spec: the move between the pools that a promotion of the
missing `fifo` makes once the external start-execution request and state update
have succeeded: the head of the pending pool is popped and put in the running
pool (removal from the source pool, insertion into the destination pool). -/
def JobPool.promote (compare : JobNode → JobNode → Bool) (p : JobPool) : JobPool :=
  match p.pending with
  | [] => p
  | n :: rest => { pending := rest, running := (OrderedPool.Sync compare p.running n).1 }

/-- Modelled from the spec: the loop of the missing `fifo`, `while running.Len()
< MaxConcurrent and pending.Len() > 0` promote the head of the pending pool,
with a bound on the number of iterations. The cap is a Go `int`. `started n`
tells whether the external start-execution request and state update for the
node `n` succeed in this pass; when they fail the item remains pending and the
pass is abandoned, to be retried on the next pass. -/
def JobPool.admitLoop (compare : JobNode → JobNode → Bool) (started : JobNode → Bool)
    (maxConcurrent : Int) : Nat → JobPool → JobPool
  | 0, p => p
  | fuel + 1, p =>
    if (p.running.Len : Int) < maxConcurrent ∧ 0 < p.pending.Len then
      match p.pending with
      | [] => p
      | n :: _ =>
        if started n then
          JobPool.admitLoop compare started maxConcurrent fuel (p.promote compare)
        else p
    else p

/-- Modelled from the spec: the admission policy of one dispatch pass of the
missing `fifo`; every iteration pops one pending item or ends the pass, so
`pending.Len()` iterations are enough. -/
def JobPool.admission (compare : JobNode → JobNode → Bool) (started : JobNode → Bool)
    (maxConcurrent : Int) (p : JobPool) : JobPool :=
  JobPool.admitLoop compare started maxConcurrent p.pending.Len p

/-- Modelled from the spec: one dispatch pass of the missing `fifo`: the listed
items are fed through `SyncJob`, then the admission policy is applied. -/
def dispatchPass (compare : JobNode → JobNode → Bool) (started : JobNode → Bool)
    (maxConcurrent : Int) (items : List IntegrationJob) (p : JobPool) : JobPool :=
  JobPool.admission compare started maxConcurrent (items.foldl (JobPool.SyncJob compare) p)

/-- The number of promotions the admission policy makes from the pool `p` under
the cap: `min(k, max(c - r, 0))` for `k` pending and `r` running items, unless
an external update fails first: no more than the number of leading pending
items whose external update succeeds. -/
def JobPool.admitted (started : JobNode → Bool) (maxConcurrent : Int) (p : JobPool) : Nat :=
  min (min p.pending.Len (maxConcurrent - p.running.Len).toNat)
    (p.pending.takeWhile started).length

/-- The comparator is a strict order, as the spec requires of the comparator of
a pool: it is never true both ways and it is transitive. -/
def StrictComparator (compare : JobNode → JobNode → Bool) : Prop :=
  (∀ a b, compare a b = true → compare b a = false) ∧
  (∀ a b c, compare a b = true → compare b c = true → compare a c = true)

/-- The nodes of a pool are in comparator order: no node comes, by the
comparator, before a node placed ahead of it. -/
def OrderedPool.InOrder (compare : JobNode → JobNode → Bool) (p : OrderedPool) : Prop :=
  p.Pairwise (fun a b => compare b a = false)

instance (compare : JobNode → JobNode → Bool) (p : OrderedPool) :
    Decidable (OrderedPool.InOrder compare p) := by
  unfold OrderedPool.InOrder; infer_instance

/-- The state of the pools the spec calls for: the identities held by the two
pools are pairwise different, and each pool is in comparator order. -/
def JobPool.WellFormed (compare : JobNode → JobNode → Bool) (p : JobPool) : Prop :=
  ((p.pending ++ p.running).map JobNode.identity).Nodup ∧
    p.pending.InOrder compare ∧ p.running.InOrder compare

instance (compare : JobNode → JobNode → Bool) (p : JobPool) :
    Decidable (JobPool.WellFormed compare p) := by
  unfold JobPool.WellFormed; infer_instance

/-- Modelled from the spec: the ordering key of a pool node (section 3), creation
timestamp with ties broken by the identity string; the comparator of the
scheduler itself is not among the sources at hand. -/
def byCreationThenIdentity (a b : JobNode) : Bool :=
  decide (a.CreationTimestamp < b.CreationTimestamp) ||
    (decide (a.CreationTimestamp = b.CreationTimestamp) &&
      strLess (a.Namespace ++ "_" ++ a.Name) (b.Namespace ++ "_" ++ b.Name))

/-- The text `fmt.Sprintf("%s_%s", n.Namespace, n.Name)` that `testCompare`
compares: the identity string of a node. -/
def JobNode.identityString (n : JobNode) : String := n.Namespace ++ "_" ++ n.Name

end pool

/-! ## Fake git client (pkg/git/fake/fake.go) -/

namespace fake

/-- Go `git.IssueLabel` as far as the fake uses it: the field `Name`. -/
structure IssueLabel where
  Name : String
deriving DecidableEq, Repr

/-- Go `git.PullRequest` as far as the fake uses it: `ID` and `Labels`. -/
structure PullRequest where
  ID : Int
  Labels : List IssueLabel
deriving DecidableEq, Repr

/-- Go `git.WebhookEntry` with the fields the fake fills in. -/
structure WebhookEntry where
  ID : Int
  URL : String
deriving DecidableEq, Repr

/-- Go `git.User` as far as the fake uses it: the field `Name`. -/
structure User where
  Name : String
deriving DecidableEq, Repr

/-- Go `git.CommitStatus`; the fake stores and returns it without looking
inside, it is kept as an uninterpreted text. -/
abbrev CommitStatus := String

/-- Go `git.IssueComment` as `RegisterComment` builds it: the body and the
number of the issue (`CreatedAt` is the wall clock and is left out). -/
structure IssueComment where
  Body : String
  IssueID : Int
deriving DecidableEq, Repr

/-- Go `Repo`: each Go map is its lookup function; `PullRequests` holds pointers
(`*git.PullRequest`), here addresses of pull request objects. -/
structure Repo where
  Webhooks : Int → Option WebhookEntry
  UserCanWrite : String → Option Bool
  PullRequests : Int → Option Ptr
  CommitStatuses : String → Option (List CommitStatus)
  Comments : Int → Option (List IssueComment)

/-- The package-level variables `Users` and `Repos`, and the pull request
objects the pointers stored in `Repos` refer to. -/
structure State where
  Users : String → Option User
  Repos : String → Option Repo
  prs : Ptr → PullRequest

/-- Go `Client` as far as the fake reads it:
`c.IntegrationConfig.Spec.Git.Repository`. -/
structure Client where
  Repository : String
deriving DecidableEq, Repr

/-- Go `(c *Client) SetLabel(_, id, label)`: the new state and the returned
`error` (`none` for `nil`). -/
def Client.SetLabel (c : Client) (id : Int) (label : String) (st : State) :
    State × Option String :=
  match st.Repos c.Repository with
  | none => (st, some "404 no such repository")
  | some repo =>
    match repo.PullRequests id with
    | none => (st, some "404 no such PR")
    | some pr =>
      ({ st with prs := fun q =>
          if q = pr then { st.prs pr with Labels := (st.prs pr).Labels ++ [{ Name := label }] }
          else st.prs q }, none)

/-- The loop `for i, l := range pr.Labels` of `DeleteLabel` from index `i` on:
the index of the first label named `label` (the loop breaks there), `-1` if
there is none. -/
def findLabel (label : String) : List IssueLabel → Nat → Int
  | [], _ => -1
  | l :: ls, i => if l.Name = label then (i : Int) else findLabel label ls (i + 1)

/-- The slice `DeleteLabel` assigns to `pr.Labels`. -/
def removeLabel (labels : List IssueLabel) (label : String) : List IssueLabel :=
  let idx := findLabel label labels 0
  if idx ≥ 0 then
    if idx = (labels.length : Int) - 1 then labels.take idx.toNat
    else labels.take idx.toNat ++ labels.drop (idx.toNat + 1)
  else labels

/-- Go `DeleteLabel(repoName, id, label)`: the new state and the returned
`error` (`none` for `nil`). -/
def DeleteLabel (repoName : String) (id : Int) (label : String) (st : State) :
    State × Option String :=
  match st.Repos repoName with
  | none => (st, some "404 no such repository")
  | some repo =>
    match repo.PullRequests id with
    | none => (st, some "404 no such PR")
    | some pr =>
      ({ st with prs := fun q =>
          if q = pr then { st.prs pr with Labels := removeLabel (st.prs pr).Labels label }
          else st.prs q }, none)

/-- Go `(c *Client) DeleteLabel(_, id, label)`. -/
def Client.DeleteLabel (c : Client) (id : Int) (label : String) (st : State) :
    State × Option String :=
  fake.DeleteLabel c.Repository id label st

/-- The label list of pull request `id` of the repository, if both exist. -/
def State.labels (st : State) (repoName : String) (id : Int) : Option (List IssueLabel) :=
  match st.Repos repoName with
  | none => none
  | some repo =>
    match repo.PullRequests id with
    | none => none
    | some pr => some (st.prs pr).Labels

/-- Number of labels named `label` in a list. -/
def countNamed (label : String) (labels : List IssueLabel) : Nat :=
  labels.countP (fun l => decide (l.Name = label))

/-- A repository without webhooks, users, statuses and comments whose only pull
request is number 1, stored at address 0. -/
def demoRepo : Repo :=
  { Webhooks := fun _ => none, UserCanWrite := fun _ => none,
    PullRequests := fun i => if i = 1 then some 0 else none,
    CommitStatuses := fun _ => none, Comments := fun _ => none }

/-- A state with the one repository `tmax/cicd` holding `demoRepo`, whose pull
request carries the given labels. -/
def demoState (labels : List IssueLabel) : State :=
  { Users := fun _ => none,
    Repos := fun r => if r = "tmax/cicd" then some demoRepo else none,
    prs := fun _ => { ID := 1, Labels := labels } }

end fake

/-- The keys of a binding table are bound to pairwise distinct variables: no two
entries at different places of the table are bound to the same variable. -/
def DistinctVars (vars : List (String × operatorConfig)) : Prop :=
  vars.Pairwise (fun a b => a.2.var = none ∨ a.2.var ≠ b.2.var)

instance (vars : List (String × operatorConfig)) : Decidable (DistinctVars vars) := by
  unfold DistinctVars; infer_instance

/-! ## Fake git client: the other repository operations (pkg/git/fake/fake.go)

The maps of a `Repo` are taken to be non-nil, and a Go map that is ranged over
comes with the list of its keys in the order the loop visits them. -/

namespace fake

/-- The store `Repos[name] = repo` seen from the package state: the maps of a
`Repo` are references, so a write through the copy `repo` of `Repos[name]` is a
write to the repository stored under `name`. -/
def State.setRepo (st : State) (name : String) (repo : Repo) : State :=
  { st with Repos := fun r => if r = name then some repo else st.Repos r }

/-- Go `(c *Client) ListWebhook()`; `keys` are the keys of `repo.Webhooks` in
the order the loop visits them. Returns the result and the `error`. -/
def Client.ListWebhook (c : Client) (keys : List Int) (st : State) :
    List WebhookEntry × Option String :=
  match st.Repos c.Repository with
  | none => ([], some "404 no such repository")
  | some repo => (keys.filterMap repo.Webhooks, none)

/-- Go `(c *Client) RegisterWebhook(url)`; `id` is the value of `rand.Intn(100)`.
Returns the new state and the `error`. -/
def Client.RegisterWebhook (c : Client) (url : String) (id : Int) (st : State) :
    State × Option String :=
  match st.Repos c.Repository with
  | none => (st, some "404 no such repository")
  | some repo =>
    (st.setRepo c.Repository
      { repo with Webhooks := fun k =>
          if k = id then some { ID := id, URL := url } else repo.Webhooks k }, none)

/-- Go `(c *Client) DeleteWebhook(id)`. -/
def Client.DeleteWebhook (c : Client) (id : Int) (st : State) : State × Option String :=
  match st.Repos c.Repository with
  | none => (st, some "404 no such repository")
  | some repo =>
    (st.setRepo c.Repository
      { repo with Webhooks := fun k => if k = id then none else repo.Webhooks k }, none)

/-- Go `(c *Client) ListCommitStatuses(ref)`. -/
def Client.ListCommitStatuses (c : Client) (ref : String) (st : State) :
    List CommitStatus × Option String :=
  match st.Repos c.Repository with
  | none => ([], some "404 no such repository")
  | some repo =>
    match repo.CommitStatuses ref with
    | none => ([], some "404 no such ref")
    | some statuses => (statuses, none)

/-- Go `(c *Client) SetCommitStatus(sha, status)`; a missing key reads as the
empty slice. -/
def Client.SetCommitStatus (c : Client) (sha : String) (status : CommitStatus) (st : State) :
    State × Option String :=
  match st.Repos c.Repository with
  | none => (st, some "404 no such repository")
  | some repo =>
    (st.setRepo c.Repository
      { repo with CommitStatuses := fun k =>
          if k = sha then some ((repo.CommitStatuses sha).getD [] ++ [status])
          else repo.CommitStatuses k }, none)

/-- Go `(c *Client) CanUserWriteToRepo(user)`. -/
def Client.CanUserWriteToRepo (c : Client) (user : User) (st : State) :
    Bool × Option String :=
  match st.Repos c.Repository with
  | none => (false, some "404 no such repository")
  | some repo =>
    match repo.UserCanWrite user.Name with
    | none => (false, some "404 no such user")
    | some privilege => (privilege, none)

/-- Go `(c *Client) RegisterComment(_, issueNo, body)`. -/
def Client.RegisterComment (c : Client) (issueNo : Int) (body : String) (st : State) :
    State × Option String :=
  match st.Repos c.Repository with
  | none => (st, some "404 no such repository")
  | some repo =>
    (st.setRepo c.Repository
      { repo with Comments := fun k =>
          if k = issueNo then some ((repo.Comments issueNo).getD [] ++ [⟨body, issueNo⟩])
          else repo.Comments k }, none)

/-- Go `(c *Client) ListPullRequests(_)`; `keys` are the keys of
`repo.PullRequests` in the order the loop visits them, each pointer is
dereferenced. -/
def Client.ListPullRequests (c : Client) (keys : List Int) (st : State) :
    List PullRequest × Option String :=
  match st.Repos c.Repository with
  | none => ([], some "404 no such repository")
  | some repo => (keys.filterMap (fun k => (repo.PullRequests k).map st.prs), none)

/-- Go `(c *Client) GetPullRequest(id)`: the pointer found (`none` for `nil`) and
the `error`. -/
def Client.GetPullRequest (c : Client) (id : Int) (st : State) : Option Ptr × Option String :=
  match st.Repos c.Repository with
  | none => (none, some "404 no such repository")
  | some repo =>
    match repo.PullRequests id with
    | none => (none, some "404 no such pr")
    | some pr => (some pr, none)

end fake

/-! ## Folding a loop body: frame and overwrite -/

theorem foldl_frame {σ α β : Type} (f : σ → α → σ) (obs : σ → β) (l : List α) (s : σ)
    (h : ∀ x ∈ l, ∀ t, obs (f t x) = obs t) : obs (l.foldl f s) = obs s := by
  induction l generalizing s with
  | nil => rfl
  | cons x xs ih =>
    rw [List.foldl_cons, ih (f s x) (fun y hy => h y (List.mem_cons_of_mem x hy))]
    exact h x (List.mem_cons_self x xs) s

theorem foldl_overwrite {σ α β : Type} (f : σ → α → σ) (obs : σ → β) (v : β) (l : List α)
    (s : σ) (e : α) (he : e ∈ l) (hset : ∀ t, obs (f t e) = v)
    (hother : ∀ x ∈ l, x ≠ e → ∀ t, obs (f t x) = obs t) : obs (l.foldl f s) = v := by
  induction l generalizing s with
  | nil => cases he
  | cons x xs ih =>
    rw [List.foldl_cons]
    by_cases hmem : e ∈ xs
    · exact ih (f s x) hmem (fun y hy => hother y (List.mem_cons_of_mem x hy))
    · have hx : e = x := by
        rcases List.mem_cons.1 he with h | h
        · exact h
        · exact absurd h hmem
      subst hx
      rw [foldl_frame f obs xs (f s e)]
      · exact hset s
      · intro y hy hne
        refine hother y (List.mem_cons_of_mem e hy) ?_ hne
        intro hye
        exact hmem (hye ▸ hy)

/-! ## One binding of `getVars` -/

theorem read_setStr (s : Store) (p : Ptr) (v : String) (x : Var) :
    (s.setStr p v).read x = if x = .str p then .str v else s.read x := by
  cases x <;> simp [Store.setStr, Store.read]
  split <;> simp_all

theorem read_setInt (s : Store) (p : Ptr) (v : Int) (x : Var) :
    (s.setInt p v).read x = if x = .int p then .int v else s.read x := by
  cases x <;> simp [Store.setInt, Store.read]
  split <;> simp_all

theorem read_setBool (s : Store) (p : Ptr) (v : Bool) (x : Var) :
    (s.setBool p v).read x = if x = .bool p then .bool v else s.read x := by
  cases x <;> simp [Store.setBool, Store.read]
  split <;> simp_all

/-- One binding either does nothing, whatever the store, or assigns one fixed
value to the variable it is bound to, whatever the store. -/
theorem getVarsStep_uniform (data : String → Option String) (kc : String × operatorConfig) :
    (∀ t, getVarsStep data t kc = t) ∨
    (∃ x v, kc.2.var = some x ∧
      ∀ t y, (getVarsStep data t kc).read y = if y = x then v else t.read y) := by
  obtain ⟨k, c⟩ := kc
  have n1 : cfgTypeInt ≠ cfgTypeString := by decide
  have n2 : cfgTypeBool ≠ cfgTypeString := by decide
  have n3 : cfgTypeBool ≠ cfgTypeInt := by decide
  by_cases h1 : c.Typ = cfgTypeString
  · cases hp : c.StringVal with
    | none => left; intro t; cases hd : data k <;> simp [getVarsStep, h1, hp, hd]
    | some p =>
      cases hd : data k with
      | none =>
        by_cases hdef : c.StringDefault = ""
        · left; intro t; simp [getVarsStep, h1, hp, hd, hdef]
        · right
          refine ⟨.str p, .str c.StringDefault, by simp [operatorConfig.var, h1, hp], ?_⟩
          intro t y; simp [getVarsStep, h1, hp, hd, hdef, read_setStr]
      | some v =>
        by_cases hv : v = ""
        · left; intro t; simp [getVarsStep, h1, hp, hd, hv]
        · right
          refine ⟨.str p, .str v, by simp [operatorConfig.var, h1, hp], ?_⟩
          intro t y; simp [getVarsStep, h1, hp, hd, hv, read_setStr]
  · by_cases h2 : c.Typ = cfgTypeInt
    · cases hp : c.IntVal with
      | none => left; intro t; cases hd : data k <;> simp [getVarsStep, h1, h2, n1, hp, hd, n1]
      | some p =>
        cases hd : data k with
        | none =>
          right
          refine ⟨.int p, .int c.IntDefault, by simp [operatorConfig.var, h1, h2, n1, hp], ?_⟩
          intro t y; simp [getVarsStep, h1, h2, n1, hp, hd, read_setInt]
        | some v =>
          cases ha : Atoi v with
          | none => left; intro t; simp [getVarsStep, h1, h2, n1, hp, hd, ha]
          | some i =>
            right
            refine ⟨.int p, .int i, by simp [operatorConfig.var, h1, h2, n1, hp], ?_⟩
            intro t y; simp [getVarsStep, h1, h2, n1, hp, hd, ha, read_setInt]
    · by_cases h3 : c.Typ = cfgTypeBool
      · cases hp : c.BoolVal with
        | none => left; intro t; cases hd : data k <;> simp [getVarsStep, h1, h2, h3, n2, n3, hp, hd, n2, n3]
        | some p =>
          cases hd : data k with
          | none =>
            right
            refine ⟨.bool p, .bool c.BoolDefault, by simp [operatorConfig.var, h1, h2, h3, n2, n3, hp], ?_⟩
            intro t y; simp [getVarsStep, h1, h2, h3, n2, n3, hp, hd, read_setBool]
          | some v =>
            by_cases ht : ToLower v = "true"
            · right
              refine ⟨.bool p, .bool true, by simp [operatorConfig.var, h1, h2, h3, n2, n3, hp], ?_⟩
              intro t y; simp [getVarsStep, h1, h2, h3, n2, n3, hp, hd, ht, read_setBool]
            · by_cases hf : ToLower v = "false"
              · right
                refine ⟨.bool p, .bool false, by simp [operatorConfig.var, h1, h2, h3, n2, n3, hp], ?_⟩
                intro t y; simp [getVarsStep, h1, h2, h3, n2, n3, hp, hd, ht, hf, read_setBool]
              · left; intro t; simp [getVarsStep, h1, h2, h3, n2, n3, hp, hd, ht, hf]
      · left; intro t; cases hd : data k <;> simp [getVarsStep, h1, h2, h3, hd]

/-- A binding leaves every variable it is not bound to untouched. -/
theorem getVarsStep_frame (data : String → Option String) (kc : String × operatorConfig)
    (x : Var) (h : kc.2.var ≠ some x) (s : Store) :
    (getVarsStep data s kc).read x = s.read x := by
  rcases getVarsStep_uniform data kc with hid | ⟨y, v, hy, hw⟩
  · rw [hid]
  · rw [hw s x, if_neg]
    rintro rfl
    exact h hy

/-- The final value of a variable bound by one entry only is the value that
entry alone gives it. -/
theorem getVars_read_exclusive (data : String → Option String)
    (vars : List (String × operatorConfig)) (s : Store) (e : String × operatorConfig)
    (x : Var) (he : e ∈ vars) (hx : e.2.var = some x) (hex : Exclusive vars e x) :
    (getVars data vars s).read x = (getVarsStep data s e).read x := by
  have hother : ∀ kc ∈ vars, kc ≠ e → ∀ t, (getVarsStep data t kc).read x = t.read x := by
    intro kc hkc hne t
    exact getVarsStep_frame data kc x (fun h => hne (hex kc hkc h)) t
  rcases getVarsStep_uniform data e with hid | ⟨y, v, hy, hw⟩
  · rw [hid s]
    refine foldl_frame (getVarsStep data) (fun t => t.read x) vars s ?_
    intro kc hkc t
    by_cases hkce : kc = e
    · subst hkce; simp only [hid t]
    · exact hother kc hkc hkce t
  · have hyx : y = x := by rw [hx] at hy; exact (Option.some.inj hy).symm
    subst hyx
    rw [hw s y, if_pos rfl]
    refine foldl_overwrite (getVarsStep data) (fun t => t.read y) v vars s e he ?_ hother
    intro t
    simp only [hw t y, if_pos]

/-! ## `strconv.Atoi` reads back decimal text -/

theorem digitChar_toNat (d : Nat) (h : d < 10) : (Nat.digitChar d).toNat = 48 + d := by
  interval_cases d <;> rfl

theorem parseDigits_append (a b : List Char) (acc : Nat) :
    parseDigits (a ++ b) acc = (parseDigits a acc).bind (parseDigits b) := by
  induction a generalizing acc with
  | nil => rfl
  | cons c cs ih =>
    simp only [List.cons_append, parseDigits]
    split
    · exact ih _
    · rfl

theorem parseDigits_digits (l : List Nat) (hl : ∀ d ∈ l, d < 10) (acc : Nat) :
    parseDigits (l.map Nat.digitChar).reverse acc =
      some (acc * 10 ^ l.length + Nat.ofDigits 10 l) := by
  induction l generalizing acc with
  | nil => simp [parseDigits]
  | cons d l ih =>
    have hd : d < 10 := hl d (List.mem_cons_self d l)
    have hl2 : ∀ x ∈ l, x < 10 := fun x hx => hl x (List.mem_cons_of_mem d hx)
    rw [List.map_cons, List.reverse_cons, parseDigits_append, ih hl2 acc]
    simp only [Option.some_bind, parseDigits, digitChar_toNat d hd]
    have h1 : 48 ≤ 48 + d ∧ 48 + d ≤ 57 := by omega
    rw [if_pos h1]
    simp only [Nat.ofDigits_cons, List.length_cons, Nat.cast_id]
    congr 1
    have : 48 + d - 48 = d := by omega
    rw [this]
    ring

theorem parseDigits_decimalNat (n : Nat) : parseDigits (decimalNat n) 0 = some n := by
  unfold decimalNat
  split
  · next h => subst h; rfl
  · rw [parseDigits_digits _ (fun d hd => Nat.digits_lt_base (by norm_num) hd)]
    simp [Nat.ofDigits_digits]

/-- The decimal text of a natural number starts with a digit. -/
theorem decimalNat_head (n : Nat) :
    ∃ c cs, decimalNat n = c :: cs ∧ 48 ≤ c.toNat ∧ c.toNat ≤ 57 := by
  unfold decimalNat
  split
  · exact ⟨'0', [], rfl, by decide, by decide⟩
  · next h =>
    have hne : (Nat.digits 10 n).map Nat.digitChar ≠ [] := by
      simpa using (Nat.digits_ne_nil_iff_ne_zero.2 h)
    have hrev : ((Nat.digits 10 n).map Nat.digitChar).reverse ≠ [] := by simpa using hne
    obtain ⟨c, cs, hcs⟩ := List.exists_cons_of_ne_nil hrev
    refine ⟨c, cs, hcs, ?_⟩
    have hc : c ∈ (Nat.digits 10 n).map Nat.digitChar := by
      have : c ∈ ((Nat.digits 10 n).map Nat.digitChar).reverse := by rw [hcs]; simp
      simpa using this
    obtain ⟨d, hd, rfl⟩ := List.mem_map.1 hc
    have hlt : d < 10 := Nat.digits_lt_base (by norm_num) hd
    rw [digitChar_toNat d hlt]
    omega

/-- Go `strconv.Atoi(strconv.Itoa(n)) == n` for every `int`. -/
theorem Atoi_decimalText (n : Int) (hn : IsGoInt n) : Atoi (decimalText n) = some n := by
  obtain ⟨c, cs, hcs, hc1, hc2⟩ := decimalNat_head n.natAbs
  have hparse := parseDigits_decimalNat n.natAbs
  have hminus : c ≠ '-' := by rintro rfl; revert hc1; decide
  have hplus : c ≠ '+' := by rintro rfl; revert hc1; decide
  unfold IsGoInt at hn
  unfold decimalText Atoi
  by_cases hneg : n < 0
  · simp only [hneg, if_true, hcs, true_or]
    rw [hcs] at hparse
    simp only [hparse]
    have : n.natAbs ≤ 2 ^ 63 := by omega
    simp only [this, if_true]
    congr 1
    omega
  · simp only [hneg, if_false, hcs, hminus, hplus, or_self]
    rw [hcs] at hparse
    simp only [hparse]
    have : n.natAbs < 2 ^ 63 := by omega
    simp only [this, if_true]
    congr 1
    omega

/-! ## `strings.ToLower` against an ASCII word -/

theorem toLowerRune_eq_iff (a b : Char) (hb : plainLower b) :
    toLowerRune a = b ↔ (a = b ∨ a = upperAscii b) := by
  obtain ⟨hb1, hb2, hi, hk⟩ := hb
  have hbb : b = Char.ofNat b.toNat := (Char.ofNat_toNat b).symm
  constructor
  · intro h
    unfold toLowerRune at h
    split_ifs at h with h1 h2 h3
    · right
      have ha : a = Char.ofNat a.toNat := (Char.ofNat_toNat a).symm
      obtain ⟨h1l, h1u⟩ := h1
      generalize a.toNat = n at ha h h1l h1u
      subst ha
      interval_cases n <;> subst h <;> decide
    · exact absurd h.symm hi
    · exact absurd h.symm hk
    · exact Or.inl h
  · rintro (rfl | rfl)
    · unfold toLowerRune
      have h1 : ¬ (65 ≤ a.toNat ∧ a.toNat ≤ 90) := by omega
      have h2 : ¬ a.toNat = 0x130 := by omega
      have h3 : ¬ a.toNat = 0x212A := by omega
      simp only [h1, h2, h3, if_false]
    · generalize b.toNat = n at hbb hb1 hb2
      subst hbb
      interval_cases n <;> decide

theorem map_toLowerRune_eq_iff (l m : List Char) (hm : ∀ b ∈ m, plainLower b) :
    l.map toLowerRune = m ↔ List.Forall₂ (fun a b => a = b ∨ a = upperAscii b) l m := by
  induction l generalizing m with
  | nil =>
    cases m with
    | nil => simp
    | cons b m => simp
  | cons a l ih =>
    cases m with
    | nil => simp
    | cons b m =>
      have hb : plainLower b := hm b (List.mem_cons_self b m)
      have hm2 : ∀ x ∈ m, plainLower x := fun x hx => hm x (List.mem_cons_of_mem b hx)
      simp only [List.map_cons, List.cons.injEq, List.forall₂_cons, ih m hm2,
        toLowerRune_eq_iff a b hb]

/-- `strings.ToLower(v)` equals a lower-case ASCII word without `i` and `k`
exactly when `v` is a letter-case variant of the word. -/
theorem ToLower_eq_iff (v w : String) (hw : ∀ b ∈ w.data, plainLower b) :
    ToLower v = w ↔ IsCaseVariant v w := by
  unfold ToLower IsCaseVariant
  rw [← map_toLowerRune_eq_iff v.data w.data hw]
  constructor
  · intro h; rw [← h]
  · intro h; exact String.ext h

theorem ToLower_eq_true_iff (v : String) : ToLower v = "true" ↔ IsCaseVariant v "true" :=
  ToLower_eq_iff v "true" (by decide)

theorem ToLower_eq_false_iff (v : String) : ToLower v = "false" ↔ IsCaseVariant v "false" :=
  ToLower_eq_iff v "false" (by decide)

/-! ## The settings handlers -/

theorem Exclusive_of_perm {l l2 : List (String × operatorConfig)} (h : l.Perm l2)
    (e : String × operatorConfig) (x : Var) (hex : Exclusive l2 e x) : Exclusive l e x :=
  fun kc hkc hv => hex kc (h.mem_iff.1 hkc) hv

theorem notify_store (st : configs.State) (l : List Ptr) :
    (l.foldl configs.State.notify st).store = st.store :=
  foldl_frame configs.State.notify (fun t => t.store) l st (fun _ _ _ => rfl)

/-- The settings after `ApplyControllerConfigChange` are those `getVars` leaves,
whether or not the SMTP check fails. -/
theorem ApplyControllerConfigChange_store (order : List (String × operatorConfig))
    (cm : ConfigMap) (st : configs.State) :
    (configs.ApplyControllerConfigChange order cm st).1.store =
      getVars cm.Data order st.store := by
  unfold configs.ApplyControllerConfigChange
  simp only []
  split
  · rfl
  · rw [notify_store]
    split <;> rfl

/-- The `error` of `ApplyControllerConfigChange` is that of the SMTP check on the
settings `getVars` leaves. -/
theorem ApplyControllerConfigChange_error (order : List (String × operatorConfig))
    (cm : ConfigMap) (st : configs.State) :
    (configs.ApplyControllerConfigChange order cm st).2 =
      if configs.smtpInvalid (getVars cm.Data order st.store) then some configs.smtpError
      else none := by
  unfold configs.ApplyControllerConfigChange
  simp only []
  split <;> rfl

theorem Reconcile_store (order : List (String × operatorConfig)) (cm : ConfigMap)
    (st : ReconcilerState) :
    (Reconcile order (some cm) st).1.store = getVars cm.Data order st.store := by
  unfold Reconcile
  simp only []
  split <;> rfl

theorem Reconcile_error (order : List (String × operatorConfig)) (cm : ConfigMap)
    (st : ReconcilerState) :
    (Reconcile order (some cm) st).2 =
      if configs.smtpInvalid (getVars cm.Data order st.store) then some configs.smtpError
      else none := by
  unfold Reconcile
  simp only []
  split <;> rfl

theorem smtpInvalid_iff (s : Store) :
    configs.smtpInvalid s = true ↔
      (s.bools configs.EnableMail = true ∧
        (s.strs configs.SMTPHost = "" ∨ s.strs configs.SMTPUserSecret = "")) := by
  simp [configs.smtpInvalid]

/-- A present string field: the variable gets the text unless it is empty. -/
theorem getVars_str_present (data : String → Option String)
    (vars : List (String × operatorConfig)) (s : Store) (key : String) (c : operatorConfig)
    (p : Ptr) (v : String) (he : (key, c) ∈ vars) (hT : c.Typ = cfgTypeString)
    (hp : c.StringVal = some p) (hex : Exclusive vars (key, c) (.str p))
    (hd : data key = some v) :
    (getVars data vars s).strs p = if v = "" then s.strs p else v := by
  have hx : c.var = some (.str p) := by simp [operatorConfig.var, hT, hp]
  have h := getVars_read_exclusive data vars s (key, c) (.str p) he hx hex
  by_cases hv : v = ""
  · have hstep : getVarsStep data s (key, c) = s := by simp [getVarsStep, hT, hp, hd, hv]
    rw [hstep] at h
    simpa [Store.read, hv] using h
  · have hstep : getVarsStep data s (key, c) = s.setStr p v := by
      simp [getVarsStep, hT, hp, hd, hv]
    rw [hstep, read_setStr, if_pos rfl] at h
    simpa [Store.read, hv] using h

/-- A present boolean field whose lower-cased text is `true` switches the
variable on. -/
theorem getVars_bool_true (data : String → Option String)
    (vars : List (String × operatorConfig)) (s : Store) (key : String) (c : operatorConfig)
    (p : Ptr) (v : String) (he : (key, c) ∈ vars) (hT : c.Typ = cfgTypeBool)
    (hp : c.BoolVal = some p) (hex : Exclusive vars (key, c) (.bool p))
    (hd : data key = some v) (ht : ToLower v = "true") :
    (getVars data vars s).bools p = true := by
  have n2 : cfgTypeBool ≠ cfgTypeString := by decide
  have n3 : cfgTypeBool ≠ cfgTypeInt := by decide
  have hx : c.var = some (.bool p) := by simp [operatorConfig.var, hT, hp, n2, n3]
  have h := getVars_read_exclusive data vars s (key, c) (.bool p) he hx hex
  have hstep : getVarsStep data s (key, c) = s.setBool p true := by
    simp [getVarsStep, hT, n2, n3, hp, hd, ht]
  rw [hstep, read_setBool, if_pos rfl] at h
  simpa [Store.read] using h

/-- The settings part of C10 for a binding table in which `enableMail` and
`smtpHost` are bound as in the two handlers. -/
theorem enableMail_with_empty_host (data : String → Option String)
    (vars : List (String × operatorConfig)) (s : Store)
    (hm : ("enableMail",
        ({ Typ := cfgTypeBool, BoolVal := some configs.EnableMail, BoolDefault := false } :
          operatorConfig)) ∈ vars)
    (hmx : Exclusive vars ("enableMail",
        { Typ := cfgTypeBool, BoolVal := some configs.EnableMail, BoolDefault := false })
        (.bool configs.EnableMail))
    (hh : ("smtpHost",
        ({ Typ := cfgTypeString, StringVal := some configs.SMTPHost } : operatorConfig)) ∈ vars)
    (hhx : Exclusive vars ("smtpHost",
        { Typ := cfgTypeString, StringVal := some configs.SMTPHost }) (.str configs.SMTPHost))
    (hmail : data "enableMail" = some "true") (hhost : data "smtpHost" = some "") :
    (getVars data vars s).bools configs.EnableMail = true ∧
    (getVars data vars s).strs configs.SMTPHost = s.strs configs.SMTPHost := by
  constructor
  · exact getVars_bool_true data vars s _ _ _ "true" hm rfl rfl hmx hmail (by decide)
  · rw [getVars_str_present data vars s _ _ _ "" hh rfl rfl hhx hhost]
    simp

open pool

/-! ## The job pool -/

theorem mem_Remove (p : OrderedPool) (id x : Identity) :
    x ∈ (p.Remove id).map JobNode.identity ↔ x ∈ p.map JobNode.identity ∧ x ≠ id := by
  unfold OrderedPool.Remove
  simp only [List.mem_map, List.mem_filter, decide_eq_true_eq]
  constructor
  · rintro ⟨n, ⟨hn, hne⟩, rfl⟩
    exact ⟨⟨n, hn, rfl⟩, hne⟩
  · rintro ⟨⟨n, hn, rfl⟩, hne⟩
    exact ⟨n, ⟨hn, hne⟩, rfl⟩

theorem nodup_Remove (p : OrderedPool) (id : Identity)
    (h : (p.map JobNode.identity).Nodup) : ((p.Remove id).map JobNode.identity).Nodup :=
  h.sublist ((List.filter_sublist p).map JobNode.identity)

theorem insert_perm (compare : JobNode → JobNode → Bool) (n : JobNode) (p : OrderedPool) :
    (OrderedPool.insert compare n p).Perm (n :: p) := by
  induction p with
  | nil => exact List.Perm.refl _
  | cons x xs ih =>
    unfold OrderedPool.insert
    split
    · exact List.Perm.refl _
    · exact (List.Perm.cons x ih).trans (List.Perm.swap n x xs)

theorem mem_Sync (compare : JobNode → JobNode → Bool) (p : OrderedPool) (n : JobNode)
    (x : Identity) :
    x ∈ (OrderedPool.Sync compare p n).1.map JobNode.identity ↔
      x = n.identity ∨ (x ∈ p.map JobNode.identity ∧ x ≠ n.identity) := by
  unfold OrderedPool.Sync
  simp only []
  rw [((insert_perm compare n (p.Remove n.identity)).map JobNode.identity).mem_iff,
    List.map_cons, List.mem_cons, mem_Remove]

theorem nodup_Sync (compare : JobNode → JobNode → Bool) (p : OrderedPool) (n : JobNode)
    (h : (p.map JobNode.identity).Nodup) :
    ((OrderedPool.Sync compare p n).1.map JobNode.identity).Nodup := by
  unfold OrderedPool.Sync
  simp only []
  rw [((insert_perm compare n (p.Remove n.identity)).map JobNode.identity).nodup_iff,
    List.map_cons, List.nodup_cons]
  refine ⟨?_, nodup_Remove p n.identity h⟩
  intro hmem
  exact ((mem_Remove p n.identity n.identity).1 hmem).2 rfl

theorem node_identity (j : IntegrationJob) : j.node.identity = j.identity := rfl

theorem lastState_snoc (jobs : List IntegrationJob) (j : IntegrationJob) (id : Identity) :
    lastState (jobs ++ [j]) id = if j.identity = id then some j.State else lastState jobs id := by
  unfold lastState
  rw [List.filter_append]
  by_cases h : j.identity = id
  · simp [h, List.filter_cons]
  · simp [h, List.filter_cons]

theorem syncAll_snoc (compare : JobNode → JobNode → Bool) (jobs : List IntegrationJob)
    (j : IntegrationJob) :
    syncAll compare (jobs ++ [j]) = JobPool.SyncJob compare (syncAll compare jobs) j := by
  unfold syncAll
  rw [List.foldl_append]
  rfl

/-- Invariant of the pools after a sequence of `SyncJob` calls. -/
theorem syncAll_invariant (compare : JobNode → JobNode → Bool) (jobs : List IntegrationJob) :
    (∀ x, x ∈ (syncAll compare jobs).pending.map JobNode.identity ↔
        lastState jobs x = some .Pending) ∧
    (∀ x, x ∈ (syncAll compare jobs).running.map JobNode.identity ↔
        lastState jobs x = some .Running) ∧
    ((syncAll compare jobs).pending.map JobNode.identity).Nodup ∧
    ((syncAll compare jobs).running.map JobNode.identity).Nodup := by
  induction jobs using List.reverseRecOn with
  | nil => simp [syncAll, New, lastState]
  | append_singleton jobs j ih =>
    obtain ⟨hp, hr, hnp, hnr⟩ := ih
    rw [syncAll_snoc]
    simp only [lastState_snoc]
    unfold JobPool.SyncJob
    cases hs : j.State
    · simp only []
      refine ⟨?_, ?_, nodup_Sync compare _ _ hnp, nodup_Remove _ _ hnr⟩
      · intro x
        rw [mem_Sync, node_identity, hp]
        by_cases hx : j.identity = x
        · simp [hx]
        · simp [hx, Ne.symm hx, eq_comm]
      · intro x
        rw [mem_Remove, hr]
        by_cases hx : j.identity = x
        · simp [hx]
        · simp [hx, Ne.symm hx]
    · simp only []
      refine ⟨?_, ?_, nodup_Remove _ _ hnp, nodup_Sync compare _ _ hnr⟩
      · intro x
        rw [mem_Remove, hp]
        by_cases hx : j.identity = x
        · simp [hx]
        · simp [hx, Ne.symm hx]
      · intro x
        rw [mem_Sync, node_identity, hr]
        by_cases hx : j.identity = x
        · simp [hx]
        · simp [hx, Ne.symm hx, eq_comm]
    all_goals
      simp only []
      refine ⟨?_, ?_, nodup_Remove _ _ hnp, nodup_Remove _ _ hnr⟩
      · intro x
        rw [mem_Remove, hp]
        by_cases hx : j.identity = x
        · simp [hx]
        · simp [hx, Ne.symm hx]
      · intro x
        rw [mem_Remove, hr]
        by_cases hx : j.identity = x
        · simp [hx]
        · simp [hx, Ne.symm hx]

theorem lastState_mem (jobs : List IntegrationJob) (x : Identity) (st : IntegrationJobState)
    (h : lastState jobs x = some st) : x ∈ jobs.map IntegrationJob.identity := by
  unfold lastState at h
  obtain ⟨j, hj, _⟩ := Option.map_eq_some'.1 h
  have hmem := List.mem_of_getLast?_eq_some hj
  rw [List.mem_filter] at hmem
  exact List.mem_map.2 ⟨j, hmem.1, by simpa using hmem.2⟩

theorem mem_activeIdentities (jobs : List IntegrationJob) (x : Identity) :
    x ∈ activeIdentities jobs ↔
      (lastState jobs x = some .Pending ∨ lastState jobs x = some .Running) := by
  unfold activeIdentities
  rw [List.mem_filter, List.mem_dedup, decide_eq_true_eq]
  constructor
  · exact fun h => h.2
  · intro h
    refine ⟨?_, h⟩
    rcases h with h | h
    · exact lastState_mem jobs x _ h
    · exact lastState_mem jobs x _ h

/-! ## Claims -/

/-- C1, the code as written. `Reconcile` keeps no record of versions: every call
with a non-nil resource applies the settings, whatever the resource version. The
resource of the sub-test `same-resource-version` delivered twice is handled
twice; and a second delivery with the same version visibly runs the settings
application again (it moves `MaxPipelineRun` from 3 to the default 5). -/
theorem C1_same_version_handled_again :
    (∀ (order : List (String × operatorConfig)) (cm : ConfigMap) (st : ReconcilerState),
      (Reconcile order (some cm) st).1.handled = st.handled ++ [cm.ResourceVersion]) ∧
    (reconcileAll reconcileVars [testConfigMap, testConfigMap] freshReconciler).handled =
      ["11111", "11111"] ∧
    (reconcileAll reconcileVars [testConfigMapThree] freshReconciler).store.ints
      configs.MaxPipelineRun = 3 ∧
    (reconcileAll reconcileVars [testConfigMapThree, testConfigMap] freshReconciler).store.ints
      configs.MaxPipelineRun = 5 := by
  refine ⟨?_, by decide, by decide, by decide⟩
  intro order cm st
  unfold Reconcile
  simp only []
  split <;> rfl

/-- C2. For every comparator and every sequence of `SyncJob` calls on a fresh
pool, after each call (the last one being for `job`): `job` is in the pending
pool iff its state is Pending and in the running pool iff its state is Running
(so in neither when its state is terminal); the identities held by the two pools
together are pairwise different (no identity is in both pools, nor twice in
one); and `pending.Len() + running.Len()` is the number of distinct identities
whose last synced state is Pending or Running. The run of `TestJobPool_SyncJob`
gives 7/0, then 6/1 once job 3 is Running, then 6/0 once it is Completed. -/
theorem C2_pools_track_last_states (compare : JobNode → JobNode → Bool)
    (jobs : List IntegrationJob) (job : IntegrationJob) :
    (job.identity ∈ (syncAll compare (jobs ++ [job])).pending.map JobNode.identity ↔
      job.State = .Pending) ∧
    (job.identity ∈ (syncAll compare (jobs ++ [job])).running.map JobNode.identity ↔
      job.State = .Running) ∧
    (((syncAll compare (jobs ++ [job])).pending ++
        (syncAll compare (jobs ++ [job])).running).map JobNode.identity).Nodup ∧
    (syncAll compare (jobs ++ [job])).pending.Len + (syncAll compare (jobs ++ [job])).running.Len
      = (activeIdentities (jobs ++ [job])).length ∧
    ((syncAll testCompare testJobs).pending.Len = 7 ∧
      (syncAll testCompare testJobs).running.Len = 0 ∧
      (syncAll testCompare
        (testJobs ++ [{ jobForTest "3" "default" 0 with State := .Running }])).pending.Len = 6 ∧
      (syncAll testCompare
        (testJobs ++ [{ jobForTest "3" "default" 0 with State := .Running }])).running.Len = 1 ∧
      (syncAll testCompare
        (testJobs ++ [{ jobForTest "3" "default" 0 with State := .Running },
          { jobForTest "3" "default" 0 with State := .Completed }])).pending.Len = 6 ∧
      (syncAll testCompare
        (testJobs ++ [{ jobForTest "3" "default" 0 with State := .Running },
          { jobForTest "3" "default" 0 with State := .Completed }])).running.Len = 0) := by
  obtain ⟨hp, hr, hnp, hnr⟩ := syncAll_invariant compare (jobs ++ [job])
  have hnd : (((syncAll compare (jobs ++ [job])).pending ++
      (syncAll compare (jobs ++ [job])).running).map JobNode.identity).Nodup := by
    rw [List.map_append, List.nodup_append]
    refine ⟨hnp, hnr, ?_⟩
    intro x hx1 hx2
    have h1 := (hp x).1 hx1
    have h2 := (hr x).1 hx2
    rw [h1] at h2
    cases h2
  refine ⟨?_, ?_, hnd, ?_, by decide⟩
  · rw [hp, lastState_snoc, if_pos rfl]
    simp
  · rw [hr, lastState_snoc, if_pos rfl]
    simp
  · have hperm : (((syncAll compare (jobs ++ [job])).pending ++
        (syncAll compare (jobs ++ [job])).running).map JobNode.identity).Perm
        (activeIdentities (jobs ++ [job])) := by
      refine (List.perm_ext_iff_of_nodup hnd ?_).2 ?_
      · exact ((List.nodup_dedup _).filter _)
      · intro x
        rw [mem_activeIdentities, List.map_append, List.mem_append, hp, hr]
    have hlen := hperm.length_eq
    simpa [OrderedPool.Len] using hlen

/-- C3. For every prior store `s`, every binding table `vars` and every Go `int`
`n`: when an integer-typed entry `(key, c)` of the table is bound to the variable
at `p` (and no other entry is), and the data holds the decimal text of `n` under
`key`, then after `getVars` the variable at `p` is exactly `n`. In particular,
for every prior state, `"maxPipelineRun"` set to the decimal text of `n` makes
`MaxPipelineRun` equal to `n` after `ApplyControllerConfigChange`, in whichever
order the table is visited. -/
theorem C3_int_field_sets_variable (data : String → Option String)
    (vars : List (String × operatorConfig)) (s : Store) (key : String) (c : operatorConfig)
    (p : Ptr) (n : Int) (order : List (String × operatorConfig)) (cm : ConfigMap)
    (st : configs.State) (he : (key, c) ∈ vars) (hT : c.Typ = cfgTypeInt)
    (hp : c.IntVal = some p) (hex : Exclusive vars (key, c) (.int p)) (hn : IsGoInt n)
    (hd : data key = some (decimalText n))
    (hperm : order.Perm configs.controllerVars)
    (hcm : cm.Data "maxPipelineRun" = some (decimalText n)) :
    (getVars data vars s).ints p = n ∧
    (configs.ApplyControllerConfigChange order cm st).1.store.ints configs.MaxPipelineRun = n := by
  have general : ∀ (data : String → Option String) (vars : List (String × operatorConfig))
      (s : Store) (key : String) (c : operatorConfig) (p : Ptr), (key, c) ∈ vars →
      c.Typ = cfgTypeInt → c.IntVal = some p → Exclusive vars (key, c) (.int p) →
      data key = some (decimalText n) → (getVars data vars s).ints p = n := by
    intro data vars s key c p he hT hp hex hd
    have hx : c.var = some (.int p) := by
      simp [operatorConfig.var, hT, hp, cfgTypeInt, cfgTypeString]
    have h := getVars_read_exclusive data vars s (key, c) (.int p) he hx hex
    have hstep : getVarsStep data s (key, c) = s.setInt p n := by
      simp [getVarsStep, hT, hp, hd, Atoi_decimalText n hn, cfgTypeInt, cfgTypeString]
    rw [hstep, read_setInt, if_pos rfl] at h
    simpa [Store.read] using h
  refine ⟨general data vars s key c p he hT hp hex hd, ?_⟩
  rw [ApplyControllerConfigChange_store]
  exact general cm.Data order st.store "maxPipelineRun"
    { Typ := cfgTypeInt, IntVal := some configs.MaxPipelineRun, IntDefault := 5 }
    configs.MaxPipelineRun (hperm.mem_iff.2 (by decide)) rfl rfl
    (Exclusive_of_perm hperm _ _ (by unfold Exclusive; decide)) hcm

/-- Witness of C3: the data `"maxPipelineRun": "3"`, `"collectPeriod": "-48"`
makes `MaxPipelineRun` equal to 3, from settings in which it was 5 and from
fresh settings. -/
theorem C3_int_field_sets_variable_witness :
    decimalText 3 = "3" ∧ IsGoInt 3 ∧
    (getVars (mapOf [("maxPipelineRun", "3"), ("collectPeriod", "-48")]) configs.controllerVars
      ((zeroStore.setInt configs.MaxPipelineRun 5).setInt configs.CollectPeriod 120)).ints
      configs.MaxPipelineRun = 3 ∧
    (configs.ApplyControllerConfigChange configs.controllerVars
      { Name := "cicd-config", ResourceVersion := "1",
        Data := mapOf [("maxPipelineRun", "3"), ("collectPeriod", "-48")] }
      configs.freshState).1.store.ints configs.MaxPipelineRun = 3 :=
  have h3 : decimalText 3 = "3" := by simp [decimalText, decimalNat]; rfl
  ⟨h3, by decide,
    C3_int_field_sets_variable (mapOf [("maxPipelineRun", "3"), ("collectPeriod", "-48")])
      configs.controllerVars
      ((zeroStore.setInt configs.MaxPipelineRun 5).setInt configs.CollectPeriod 120)
      "maxPipelineRun"
      { Typ := cfgTypeInt, IntVal := some configs.MaxPipelineRun, IntDefault := 5 }
      configs.MaxPipelineRun 3 configs.controllerVars
      { Name := "cicd-config", ResourceVersion := "1",
        Data := mapOf [("maxPipelineRun", "3"), ("collectPeriod", "-48")] }
      configs.freshState (by decide) rfl rfl (by unfold Exclusive; decide) (by decide)
      (by rw [h3]; rfl) (List.Perm.refl _) (by rw [h3]; rfl)⟩

/-- C4, counterexample. The table of `ApplyControllerConfigChange` declares
`ingressClass` with `StringDefault: ""`. With `IngressClass` previously
`"nginx"` and data that omits `ingressClass`, the variable is still `"nginx"`
after `getVars` and after the handler, not the declared default `""`. -/
theorem C4_counterexample :
    (("ingressClass",
        ({ Typ := cfgTypeString,
           StringVal := some configs.IngressClass,
           StringDefault := "" } : operatorConfig)) ∈ configs.controllerVars) ∧
    mapOf [] "ingressClass" = none ∧
    (zeroStore.setStr configs.IngressClass "nginx").strs configs.IngressClass = "nginx" ∧
    (getVars (mapOf []) configs.controllerVars
        (zeroStore.setStr configs.IngressClass "nginx")).strs configs.IngressClass = "nginx" ∧
    (configs.ApplyControllerConfigChange configs.controllerVars
        { Name := "cicd-config", ResourceVersion := "1", Data := mapOf [] }
        { configs.freshState with
          store := zeroStore.setStr configs.IngressClass "nginx" }).1.store.strs
      configs.IngressClass = "nginx" := by
  decide

/-- C4, amended. For every prior store, when the data omits the key of a binding
that alone is bound to its variable `x`: the variable holds the default of the
binding afterwards, whatever it held before, if the binding is integer or
boolean typed or its string default is not empty; it keeps its prior value if
the binding is a string binding whose default is the empty string. In
particular, whenever `maxPipelineRun` is absent from the data, `MaxPipelineRun`
is 5 after `ApplyControllerConfigChange`, in whichever order the table is
visited. -/
theorem C4_absent_field_gets_default (data : String → Option String)
    (vars : List (String × operatorConfig)) (s : Store) (key : String) (c : operatorConfig)
    (x : Var) (order : List (String × operatorConfig)) (cm : ConfigMap) (st : configs.State)
    (he : (key, c) ∈ vars) (hx : c.var = some x) (hex : Exclusive vars (key, c) x)
    (hd : data key = none)
    (hperm : order.Perm configs.controllerVars) (habs : cm.Data "maxPipelineRun" = none) :
    (getVars data vars s).read x = (if c.AssignsDefault then c.default else s.read x) ∧
    (configs.ApplyControllerConfigChange order cm st).1.store.ints configs.MaxPipelineRun = 5 := by
  have general : ∀ (data : String → Option String) (vars : List (String × operatorConfig))
      (s : Store) (key : String) (c : operatorConfig) (x : Var), (key, c) ∈ vars →
      c.var = some x → Exclusive vars (key, c) x → data key = none →
      (getVars data vars s).read x = (if c.AssignsDefault then c.default else s.read x) := by
    intro data vars s key c x he hx hex hd
    rw [getVars_read_exclusive data vars s (key, c) x he hx hex]
    unfold operatorConfig.var at hx
    unfold operatorConfig.AssignsDefault operatorConfig.default
    have n1 : cfgTypeInt ≠ cfgTypeString := by decide
    have n2 : cfgTypeBool ≠ cfgTypeString := by decide
    have n3 : cfgTypeBool ≠ cfgTypeInt := by decide
    by_cases h1 : c.Typ = cfgTypeString
    · simp only [h1, if_true] at hx ⊢
      cases hp : c.StringVal with
      | none => simp [hp] at hx
      | some p =>
        simp only [hp, Option.map_some', Option.some.injEq] at hx
        subst hx
        by_cases hne : c.StringDefault = ""
        · simp [getVarsStep, h1, hp, hd, hne]
        · simp [getVarsStep, h1, hp, hd, hne, read_setStr]
    · by_cases h2 : c.Typ = cfgTypeInt
      · simp only [h2, n1, if_true, if_false] at hx ⊢
        cases hp : c.IntVal with
        | none => simp [hp] at hx
        | some p =>
          simp only [hp, Option.map_some', Option.some.injEq] at hx
          subst hx
          simp [getVarsStep, h2, n1, hp, hd, read_setInt]
      · by_cases h3 : c.Typ = cfgTypeBool
        · simp only [h3, n2, n3, if_true, if_false] at hx ⊢
          cases hp : c.BoolVal with
          | none => simp [hp] at hx
          | some p =>
            simp only [hp, Option.map_some', Option.some.injEq] at hx
            subst hx
            simp [getVarsStep, h3, n2, n3, hp, hd, read_setBool]
        · simp [h1, h2, h3] at hx
  refine ⟨general data vars s key c x he hx hex hd, ?_⟩
  rw [ApplyControllerConfigChange_store]
  have h := general cm.Data order st.store "maxPipelineRun"
    { Typ := cfgTypeInt, IntVal := some configs.MaxPipelineRun, IntDefault := 5 }
    (.int configs.MaxPipelineRun) (hperm.mem_iff.2 (by decide)) rfl
    (Exclusive_of_perm hperm _ _ (by unfold Exclusive; decide)) habs
  simpa [Store.read, operatorConfig.default, operatorConfig.AssignsDefault, cfgTypeInt,
    cfgTypeString] using h

/-- Witness of C4 (amended): from settings in which `ExposeMode` is
`"ClusterIP"` and `MaxPipelineRun` is 3, empty data resets them to `"Ingress"`
and 5. -/
theorem C4_absent_field_gets_default_witness :
    ((getVars (mapOf []) configs.controllerVars
        ((zeroStore.setStr configs.ExposeMode "ClusterIP").setInt configs.MaxPipelineRun 3)).read
        (.str configs.ExposeMode) = .str "Ingress") ∧
    (configs.ApplyControllerConfigChange configs.controllerVars
        { Name := "cicd-config", ResourceVersion := "1", Data := mapOf [] }
        { configs.freshState with
          store := (zeroStore.setStr configs.ExposeMode "ClusterIP").setInt
            configs.MaxPipelineRun 3 }).1.store.ints configs.MaxPipelineRun = 5 :=
  have h := C4_absent_field_gets_default (mapOf []) configs.controllerVars
    ((zeroStore.setStr configs.ExposeMode "ClusterIP").setInt configs.MaxPipelineRun 3)
    "exposeMode"
    { Typ := cfgTypeString, StringVal := some configs.ExposeMode, StringDefault := "Ingress" }
    (.str configs.ExposeMode) configs.controllerVars
    { Name := "cicd-config", ResourceVersion := "1", Data := mapOf [] }
    { configs.freshState with
      store := (zeroStore.setStr configs.ExposeMode "ClusterIP").setInt configs.MaxPipelineRun 3 }
    (by decide) rfl (by unfold Exclusive; decide) rfl (List.Perm.refl _) rfl
  ⟨h.1.trans (if_pos (by decide)), h.2⟩

/-- C5, counterexample. An integer binding without a default (`IntDefault` left
at zero) bound to a variable holding 3: after `getVars` on data that omits the
key the variable holds 0, not 3. -/
theorem C5_counterexample :
    operatorConfig.NoDefault { Typ := cfgTypeInt, IntVal := some configs.MaxPipelineRun } ∧
    mapOf [] "maxPipelineRun" = none ∧
    (zeroStore.setInt configs.MaxPipelineRun 3).ints configs.MaxPipelineRun = 3 ∧
    (getVars (mapOf [])
        [("maxPipelineRun", { Typ := cfgTypeInt, IntVal := some configs.MaxPipelineRun })]
        (zeroStore.setInt configs.MaxPipelineRun 3)).ints configs.MaxPipelineRun = 0 := by
  decide

/-- C5, amended. When the data omits the key of a binding that declares no
default and that alone is bound to its variable: a string variable keeps its
prior value, an integer variable is set to 0 and a boolean variable to false. -/
theorem C5_absent_field_without_default (data : String → Option String)
    (vars : List (String × operatorConfig)) (s : Store) (key : String) (c : operatorConfig)
    (x : Var) (he : (key, c) ∈ vars) (hx : c.var = some x) (hex : Exclusive vars (key, c) x)
    (hnd : c.NoDefault) (hd : data key = none) :
    (getVars data vars s).read x =
      match x with
      | .str _ => s.read x
      | .int _ => .int 0
      | .bool _ => .bool false := by
  rw [getVars_read_exclusive data vars s (key, c) x he hx hex]
  unfold operatorConfig.var at hx
  unfold operatorConfig.NoDefault operatorConfig.default at hnd
  have n1 : cfgTypeInt ≠ cfgTypeString := by decide
  have n2 : cfgTypeBool ≠ cfgTypeString := by decide
  have n3 : cfgTypeBool ≠ cfgTypeInt := by decide
  by_cases h1 : c.Typ = cfgTypeString
  · simp only [h1, if_true] at hx hnd
    cases hp : c.StringVal with
    | none => simp [hp] at hx
    | some p =>
      have hemp : c.StringDefault = "" := by simpa using hnd
      simp only [hp, Option.map_some', Option.some.injEq] at hx
      subst hx
      simp [getVarsStep, h1, hp, hd, hemp]
  · by_cases h2 : c.Typ = cfgTypeInt
    · simp only [h2, n1, if_true, if_false] at hx hnd
      cases hp : c.IntVal with
      | none => simp [hp] at hx
      | some p =>
        have hz : c.IntDefault = 0 := by simpa using hnd
        simp only [hp, Option.map_some', Option.some.injEq] at hx
        subst hx
        simp [getVarsStep, h2, n1, hp, hd, hz, read_setInt]
    · by_cases h3 : c.Typ = cfgTypeBool
      · simp only [h3, n2, n3, if_true, if_false] at hx
        simp only [h1, h2, if_false] at hnd
        cases hp : c.BoolVal with
        | none => simp [hp] at hx
        | some p =>
          have hz : c.BoolDefault = false := by simpa using hnd
          simp only [hp, Option.map_some', Option.some.injEq] at hx
          subst hx
          simp [getVarsStep, h3, n2, n3, hp, hd, hz, read_setBool]
      · simp [h1, h2, h3] at hx

/-- Witness of C5 (amended): empty data leaves `SMTPHost`, bound without a
default, at its prior value. -/
theorem C5_absent_field_without_default_witness :
    (getVars (mapOf []) configs.controllerVars
        (zeroStore.setStr configs.SMTPHost "smtp.example.com:25")).read (.str configs.SMTPHost) =
      (zeroStore.setStr configs.SMTPHost "smtp.example.com:25").read (.str configs.SMTPHost) :=
  C5_absent_field_without_default (mapOf []) configs.controllerVars
    (zeroStore.setStr configs.SMTPHost "smtp.example.com:25") "smtpHost"
    { Typ := cfgTypeString, StringVal := some configs.SMTPHost } (.str configs.SMTPHost)
    (by decide) rfl (by unfold Exclusive; decide) (by decide) rfl

/-- C6. When the data holds, under the key of an integer or boolean binding that
alone is bound to its variable `x`, a text that is malformed for it (rejected by
`strconv.Atoi`, or neither `true` nor `false` in any letter case): after
`getVars` the variable `x` still holds its prior value (not the default); every
entry of the table that alone is bound to its variable has given that variable
the value it gives on its own; and the handlers run on this data return exactly
the verdict of the SMTP check on the resulting settings, so no error stems from
the malformed text itself. -/
theorem C6_malformed_value_skipped (data : String → Option String)
    (vars : List (String × operatorConfig)) (s : Store) (key : String) (c : operatorConfig)
    (x : Var) (v : String) (he : (key, c) ∈ vars) (hx : c.var = some x)
    (hex : Exclusive vars (key, c) x) (hd : data key = some v) (hmal : Malformed c v) :
    (getVars data vars s).read x = s.read x ∧
    (∀ e2 ∈ vars, ∀ y, e2.2.var = some y → Exclusive vars e2 y →
      (getVars data vars s).read y = (getVarsStep data s e2).read y) ∧
    (∀ (name version : String) (st : configs.State),
      (configs.ApplyControllerConfigChange vars
          { Name := name, ResourceVersion := version, Data := data } st).2 =
        if configs.smtpInvalid (getVars data vars st.store) then some configs.smtpError
        else none) ∧
    (∀ (name version : String) (st : ReconcilerState),
      (Reconcile vars (some { Name := name, ResourceVersion := version, Data := data }) st).2 =
        if configs.smtpInvalid (getVars data vars st.store) then some configs.smtpError
        else none) := by
  refine ⟨?_, ?_, ?_, ?_⟩
  · rw [getVars_read_exclusive data vars s (key, c) x he hx hex]
    have n1 : cfgTypeInt ≠ cfgTypeString := by decide
    have n2 : cfgTypeBool ≠ cfgTypeString := by decide
    have n3 : cfgTypeBool ≠ cfgTypeInt := by decide
    rcases hmal with ⟨hT, hA⟩ | ⟨hT, hnt, hnf⟩
    · cases hp : c.IntVal with
      | none => simp [getVarsStep, hT, n1, hp, hd]
      | some p => simp [getVarsStep, hT, n1, hp, hd, hA]
    · have ht : ToLower v ≠ "true" := fun h => hnt ((ToLower_eq_true_iff v).1 h)
      have hf : ToLower v ≠ "false" := fun h => hnf ((ToLower_eq_false_iff v).1 h)
      cases hp : c.BoolVal with
      | none => simp [getVarsStep, hT, n2, n3, hp, hd]
      | some p => simp [getVarsStep, hT, n2, n3, hp, hd, ht, hf]
  · intro e2 he2 y hy hexy
    exact getVars_read_exclusive data vars s e2 y he2 hy hexy
  · intro name version st
    exact ApplyControllerConfigChange_error vars _ st
  · intro name version st
    exact Reconcile_error vars _ st

/-- Witness of C6: with `"maxPipelineRun": "many"` the cap stays at its prior
value 3. -/
theorem C6_malformed_value_skipped_witness :
    Atoi "many" = none ∧
    (getVars (mapOf [("maxPipelineRun", "many")]) configs.controllerVars
        (zeroStore.setInt configs.MaxPipelineRun 3)).read (.int configs.MaxPipelineRun) =
      (zeroStore.setInt configs.MaxPipelineRun 3).read (.int configs.MaxPipelineRun) :=
  ⟨by decide,
    (C6_malformed_value_skipped (mapOf [("maxPipelineRun", "many")]) configs.controllerVars
      (zeroStore.setInt configs.MaxPipelineRun 3) "maxPipelineRun"
      { Typ := cfgTypeInt, IntVal := some configs.MaxPipelineRun, IntDefault := 5 }
      (.int configs.MaxPipelineRun) "many" (by decide) rfl (by unfold Exclusive; decide) rfl
      (Or.inl ⟨rfl, by decide⟩)).1⟩

/-- C7. When the data holds, under the key of a boolean binding that alone is
bound to the variable at `p`, a letter-case variant of `true` (of `false`), then
after `getVars` the variable is true (false), whatever it was before. -/
theorem C7_bool_field_any_letter_case (data : String → Option String)
    (vars : List (String × operatorConfig)) (s : Store) (key : String) (c : operatorConfig)
    (p : Ptr) (v : String) (b : Bool) (he : (key, c) ∈ vars) (hT : c.Typ = cfgTypeBool)
    (hp : c.BoolVal = some p) (hex : Exclusive vars (key, c) (.bool p))
    (hd : data key = some v) (hv : IsCaseVariant v (if b = true then "true" else "false")) :
    (getVars data vars s).bools p = b := by
  have n2 : cfgTypeBool ≠ cfgTypeString := by decide
  have n3 : cfgTypeBool ≠ cfgTypeInt := by decide
  have hx : c.var = some (.bool p) := by simp [operatorConfig.var, hT, hp, n2, n3]
  have h := getVars_read_exclusive data vars s (key, c) (.bool p) he hx hex
  have hstep : getVarsStep data s (key, c) = s.setBool p b := by
    cases b with
    | true =>
      have ht : ToLower v = "true" := (ToLower_eq_true_iff v).2 (by simpa using hv)
      simp [getVarsStep, hT, n2, n3, hp, hd, ht]
    | false =>
      have hf : ToLower v = "false" := (ToLower_eq_false_iff v).2 (by simpa using hv)
      have ht : ToLower v ≠ "true" := by rw [hf]; decide
      simp [getVarsStep, hT, n2, n3, hp, hd, ht, hf]
  rw [hstep, read_setBool, if_pos rfl] at h
  simpa [Store.read] using h

/-- Witness of C7: `"enableMail": "tRuE"` switches `EnableMail` on. -/
theorem C7_bool_field_any_letter_case_witness :
    IsCaseVariant "tRuE" "true" ∧
    (getVars (mapOf [("enableMail", "tRuE")]) configs.controllerVars zeroStore).bools
      configs.EnableMail = true :=
  have hv : IsCaseVariant "tRuE" "true" := (ToLower_eq_true_iff "tRuE").1 (by decide)
  ⟨hv, C7_bool_field_any_letter_case (mapOf [("enableMail", "tRuE")]) configs.controllerVars
    zeroStore "enableMail"
    { Typ := cfgTypeBool, BoolVal := some configs.EnableMail, BoolDefault := false }
    configs.EnableMail "tRuE" true (by decide) rfl rfl (by unfold Exclusive; decide) rfl hv⟩

/-- C8. When the data holds the text `v` under the key of a string binding that
alone is bound to the variable at `p`: after `getVars` the variable is exactly
`v` if `v` is not empty, and still its prior value if `v` is empty (whatever the
default of the binding). -/
theorem C8_string_field_verbatim (data : String → Option String)
    (vars : List (String × operatorConfig)) (s : Store) (key : String) (c : operatorConfig)
    (p : Ptr) (v : String) (he : (key, c) ∈ vars) (hT : c.Typ = cfgTypeString)
    (hp : c.StringVal = some p) (hex : Exclusive vars (key, c) (.str p))
    (hd : data key = some v) :
    (getVars data vars s).strs p = if v = "" then s.strs p else v := by
  have hx : c.var = some (.str p) := by simp [operatorConfig.var, hT, hp]
  have h := getVars_read_exclusive data vars s (key, c) (.str p) he hx hex
  by_cases hv : v = ""
  · have hstep : getVarsStep data s (key, c) = s := by simp [getVarsStep, hT, hp, hd, hv]
    rw [hstep] at h
    simpa [Store.read, hv] using h
  · have hstep : getVarsStep data s (key, c) = s.setStr p v := by
      simp [getVarsStep, hT, hp, hd, hv]
    rw [hstep, read_setStr, if_pos rfl] at h
    simpa [Store.read, hv] using h

/-- Witness of C8: `"gitImage": " my/git "` is stored with its blanks, although
the binding has a default. -/
theorem C8_string_field_verbatim_witness :
    (getVars (mapOf [("gitImage", " my/git ")]) configs.controllerVars zeroStore).strs
      configs.GitImage = " my/git " :=
  (C8_string_field_verbatim (mapOf [("gitImage", " my/git ")]) configs.controllerVars zeroStore
    "gitImage"
    { Typ := cfgTypeString, StringVal := some configs.GitImage,
      StringDefault := "docker.io/alpine/git:1.0.30" }
    configs.GitImage " my/git " (by decide) rfl rfl (by unfold Exclusive; decide) rfl).trans
    (if_neg (by decide))

/-- C9. `ApplyControllerConfigChange`, and `Reconcile` on a non-nil resource,
return an error exactly when, in the settings they leave, `EnableMail` is true
and `SMTPHost` or `SMTPUserSecret` is empty; in either case the settings they
leave are those `getVars` produced (nothing is rolled back). -/
theorem C9_error_iff_smtp_check_fails (order : List (String × operatorConfig))
    (cm : ConfigMap) (st : configs.State) (rst : ReconcilerState) :
    (((configs.ApplyControllerConfigChange order cm st).2 ≠ none) ↔
      ((configs.ApplyControllerConfigChange order cm st).1.store.bools configs.EnableMail = true ∧
        ((configs.ApplyControllerConfigChange order cm st).1.store.strs configs.SMTPHost = "" ∨
         (configs.ApplyControllerConfigChange order cm st).1.store.strs configs.SMTPUserSecret
            = ""))) ∧
    (configs.ApplyControllerConfigChange order cm st).1.store = getVars cm.Data order st.store ∧
    (((Reconcile order (some cm) rst).2 ≠ none) ↔
      ((Reconcile order (some cm) rst).1.store.bools configs.EnableMail = true ∧
        ((Reconcile order (some cm) rst).1.store.strs configs.SMTPHost = "" ∨
         (Reconcile order (some cm) rst).1.store.strs configs.SMTPUserSecret = ""))) ∧
    (Reconcile order (some cm) rst).1.store = getVars cm.Data order rst.store := by
  refine ⟨?_, ApplyControllerConfigChange_store order cm st, ?_, Reconcile_store order cm rst⟩
  · rw [ApplyControllerConfigChange_store, ApplyControllerConfigChange_error,
      ← smtpInvalid_iff]
    split <;> simp_all
  · rw [Reconcile_store, Reconcile_error, ← smtpInvalid_iff]
    split <;> simp_all

/-- C10, counterexample. Prior settings with `SMTPHost` and `SMTPUserSecret`
set; the data holds `enableMail` `"true"` and `smtpHost` `""`. The handler
returns no error: the empty text does not overwrite the prior host. -/
theorem C10_counterexample :
    mapOf [("enableMail", "true"), ("smtpHost", "")] "enableMail" = some "true" ∧
    mapOf [("enableMail", "true"), ("smtpHost", "")] "smtpHost" = some "" ∧
    (configs.ApplyControllerConfigChange configs.controllerVars
      { Name := "cicd-config", ResourceVersion := "2",
        Data := mapOf [("enableMail", "true"), ("smtpHost", "")] }
      { configs.freshState with
        store := (zeroStore.setStr configs.SMTPHost "smtp.example.com:25").setStr
          configs.SMTPUserSecret "smtp-cred" }).2 = none := by
  decide

/-- C10, amended. For every prior state and every data in which `enableMail` is
`"true"` and `smtpHost` is `""`, in whichever order the table is visited:
`EnableMail` is true afterwards, `SMTPHost` keeps its prior value, and the
handler returns the validation error exactly when the prior `SMTPHost` is empty
or `SMTPUserSecret` is empty afterwards. The same holds of `Reconcile`. -/
theorem C10_enableMail_with_empty_host (order rorder : List (String × operatorConfig))
    (cm : ConfigMap) (st : configs.State) (rst : ReconcilerState)
    (hperm : order.Perm configs.controllerVars) (hrperm : rorder.Perm reconcileVars)
    (hmail : cm.Data "enableMail" = some "true") (hhost : cm.Data "smtpHost" = some "") :
    ((configs.ApplyControllerConfigChange order cm st).1.store.bools configs.EnableMail = true ∧
      (configs.ApplyControllerConfigChange order cm st).1.store.strs configs.SMTPHost =
        st.store.strs configs.SMTPHost ∧
      ((configs.ApplyControllerConfigChange order cm st).2 = some configs.smtpError ↔
        (st.store.strs configs.SMTPHost = "" ∨
          (configs.ApplyControllerConfigChange order cm st).1.store.strs configs.SMTPUserSecret
            = ""))) ∧
    ((Reconcile rorder (some cm) rst).1.store.bools configs.EnableMail = true ∧
      (Reconcile rorder (some cm) rst).1.store.strs configs.SMTPHost =
        rst.store.strs configs.SMTPHost ∧
      ((Reconcile rorder (some cm) rst).2 = some configs.smtpError ↔
        (rst.store.strs configs.SMTPHost = "" ∨
          (Reconcile rorder (some cm) rst).1.store.strs configs.SMTPUserSecret = ""))) := by
  obtain ⟨hb, hs⟩ := enableMail_with_empty_host cm.Data order st.store
    (hperm.mem_iff.2 (by decide)) (Exclusive_of_perm hperm _ _ (by unfold Exclusive; decide))
    (hperm.mem_iff.2 (by decide)) (Exclusive_of_perm hperm _ _ (by unfold Exclusive; decide))
    hmail hhost
  obtain ⟨hrb, hrs⟩ := enableMail_with_empty_host cm.Data rorder rst.store
    (hrperm.mem_iff.2 (by decide)) (Exclusive_of_perm hrperm _ _ (by unfold Exclusive; decide))
    (hrperm.mem_iff.2 (by decide)) (Exclusive_of_perm hrperm _ _ (by unfold Exclusive; decide))
    hmail hhost
  refine ⟨⟨?_, ?_, ?_⟩, ⟨?_, ?_, ?_⟩⟩
  · rw [ApplyControllerConfigChange_store]; exact hb
  · rw [ApplyControllerConfigChange_store]; exact hs
  · rw [ApplyControllerConfigChange_store, ApplyControllerConfigChange_error, ← hs]
    have hiff := smtpInvalid_iff (getVars cm.Data order st.store)
    split
    · next h => simpa using (hiff.1 h).2
    · next h =>
      have : ¬ (_ ∧ _) := fun hc => h (hiff.2 hc)
      exact ⟨fun hc => Option.noConfusion hc, fun hc => absurd ⟨hb, hc⟩ this⟩
  · rw [Reconcile_store]; exact hrb
  · rw [Reconcile_store]; exact hrs
  · rw [Reconcile_store, Reconcile_error, ← hrs]
    have hiff := smtpInvalid_iff (getVars cm.Data rorder rst.store)
    split
    · next h => simpa using (hiff.1 h).2
    · next h =>
      have : ¬ (_ ∧ _) := fun hc => h (hiff.2 hc)
      exact ⟨fun hc => Option.noConfusion hc, fun hc => absurd ⟨hrb, hc⟩ this⟩

/-- Witness of C10 (amended): from fresh settings (empty `SMTPHost`) the data
`enableMail` `"true"`, `smtpHost` `""` yields the validation error and leaves
`EnableMail` true. -/
theorem C10_enableMail_with_empty_host_witness :
    (configs.ApplyControllerConfigChange configs.controllerVars
      { Name := "cicd-config", ResourceVersion := "2",
        Data := mapOf [("enableMail", "true"), ("smtpHost", "")] } configs.freshState).2 =
      some configs.smtpError ∧
    (configs.ApplyControllerConfigChange configs.controllerVars
      { Name := "cicd-config", ResourceVersion := "2",
        Data := mapOf [("enableMail", "true"), ("smtpHost", "")] }
      configs.freshState).1.store.bools configs.EnableMail = true :=
  have h := C10_enableMail_with_empty_host configs.controllerVars reconcileVars
    { Name := "cicd-config", ResourceVersion := "2",
      Data := mapOf [("enableMail", "true"), ("smtpHost", "")] }
    configs.freshState freshReconciler (List.Perm.refl _) (List.Perm.refl _) rfl rfl
  ⟨h.1.2.2.2 (Or.inl rfl), h.1.1⟩

section
open configs

/-! ## Channel notifications -/

theorem iterate_trySend (k : Nat) (c : Chan) :
    (Chan.trySend^[k] c).len = max c.len (min c.cap (c.len + k)) ∧
      (Chan.trySend^[k] c).cap = c.cap := by
  induction k generalizing c with
  | zero => simp
  | succ k ih =>
    rw [Function.iterate_succ_apply]
    obtain ⟨h1, h2⟩ := ih c.trySend
    rw [h1, h2]
    unfold Chan.trySend
    split
    · simp only []
      constructor
      · omega
      · trivial
    · constructor
      · omega
      · trivial

theorem notify_fold_chans (l : List Ptr) (st : State) (p : Ptr) :
    (l.foldl State.notify st).chans p = Chan.trySend^[l.count p] (st.chans p) := by
  induction l generalizing st with
  | nil => rfl
  | cons q l ih =>
    rw [List.foldl_cons, ih]
    by_cases hq : q = p
    · subst hq
      simp [State.notify, Function.iterate_succ_apply]
    · have hqp : ¬ p = q := fun h => hq h.symm
      simp [State.notify, hq, hqp, List.count_cons]

theorem notify_fold_fields (l : List Ptr) (st : State) :
    (l.foldl State.notify st).ControllerInitiated = st.ControllerInitiated ∧
    (l.foldl State.notify st).ControllerInitCh = st.ControllerInitCh ∧
    (l.foldl State.notify st).controllerConfigUpdateChan = st.controllerConfigUpdateChan := by
  induction l generalizing st with
  | nil => exact ⟨rfl, rfl, rfl⟩
  | cons q l ih =>
    rw [List.foldl_cons]
    obtain ⟨h1, h2, h3⟩ := ih (st.notify q)
    exact ⟨h1, h2, h3⟩

/-- A call that fails validation changes the settings only. -/
theorem apply_failed (order : List (String × operatorConfig)) (cm : ConfigMap) (st : State)
    (h : (ApplyControllerConfigChange order cm st).2 ≠ none) :
    (ApplyControllerConfigChange order cm st).1 =
      { st with store := getVars cm.Data order st.store } := by
  unfold ApplyControllerConfigChange at h ⊢
  simp only [] at h ⊢
  split
  · rfl
  · next hv => simp [hv] at h

/-- A call that passes validation is initiated afterwards and offers one token
to each channel of `State.offers`, in order. -/
theorem apply_passed (order : List (String × operatorConfig)) (cm : ConfigMap) (st : State)
    (h : (ApplyControllerConfigChange order cm st).2 = none) :
    (ApplyControllerConfigChange order cm st).1 =
      st.offers.foldl State.notify
        { st with store := getVars cm.Data order st.store, ControllerInitiated := true } := by
  obtain ⟨store, init, ch, regs, chans⟩ := st
  unfold ApplyControllerConfigChange at h ⊢
  simp only [] at h ⊢
  split
  · next hv => simp [hv] at h
  · cases init <;> simp [State.offers, State.notify]

theorem apply_passed_fields (order : List (String × operatorConfig)) (cm : ConfigMap)
    (st : State) (h : (ApplyControllerConfigChange order cm st).2 = none) (p : Ptr) :
    (ApplyControllerConfigChange order cm st).1.chans p =
        Chan.trySend^[st.offers.count p] (st.chans p) ∧
    (ApplyControllerConfigChange order cm st).1.ControllerInitiated = true ∧
    (ApplyControllerConfigChange order cm st).1.ControllerInitCh = st.ControllerInitCh ∧
    (ApplyControllerConfigChange order cm st).1.controllerConfigUpdateChan =
        st.controllerConfigUpdateChan := by
  rw [apply_passed order cm st h]
  refine ⟨notify_fold_chans _ _ p, ?_, ?_, ?_⟩
  · rw [(notify_fold_fields _ _).1]
  · rw [(notify_fold_fields _ _).2.1]
  · rw [(notify_fold_fields _ _).2.2]

theorem offers_count (st : State) (p : Ptr) :
    st.offers.count p = st.controllerConfigUpdateChan.count p +
      (if st.ControllerInitiated = false ∧ p = st.ControllerInitCh then 1 else 0) := by
  unfold State.offers
  cases hi : st.ControllerInitiated
  · by_cases hp : p = st.ControllerInitCh
    · subst hp; simp [List.count_cons]
    · have hp2 : ¬ st.ControllerInitCh = p := fun h => hp h.symm
      simp [List.count_cons, hp, hp2]
  · simp

/-- Tokens one call puts on `ControllerInitCh` when that channel is not
registered as an update channel, and the flag afterwards. -/
theorem apply_init (order : List (String × operatorConfig)) (cm : ConfigMap) (st : State)
    (hreg : st.ControllerInitCh ∉ st.controllerConfigUpdateChan) :
    tokensSent st.ControllerInitCh st (ApplyControllerConfigChange order cm st).1 =
      (if (ApplyControllerConfigChange order cm st).2 = none ∧ st.ControllerInitiated = false ∧
          (st.chans st.ControllerInitCh).len < (st.chans st.ControllerInitCh).cap then 1 else 0) ∧
    (ApplyControllerConfigChange order cm st).1.ControllerInitiated =
      (st.ControllerInitiated || (ApplyControllerConfigChange order cm st).2.isNone) ∧
    (ApplyControllerConfigChange order cm st).1.ControllerInitCh = st.ControllerInitCh ∧
    (ApplyControllerConfigChange order cm st).1.controllerConfigUpdateChan =
      st.controllerConfigUpdateChan := by
  cases h : (ApplyControllerConfigChange order cm st).2 with
  | some e =>
    have hne : (ApplyControllerConfigChange order cm st).2 ≠ none := by rw [h]; simp
    rw [apply_failed order cm st hne]
    simp [tokensSent]
  | none =>
    obtain ⟨hc, hi, hch, hr⟩ := apply_passed_fields order cm st h st.ControllerInitCh
    refine ⟨?_, ?_, hch, hr⟩
    · unfold tokensSent
      rw [hc, (iterate_trySend _ _).1, offers_count, List.count_eq_zero_of_not_mem hreg]
      cases hinit : st.ControllerInitiated
      · by_cases hfree : (st.chans st.ControllerInitCh).len < (st.chans st.ControllerInitCh).cap
        · simp [hfree]; omega
        · simp [hfree]; omega
      · simp
    · rw [hi]; simp

theorem sentDuring_init (events : List Event) (st : State) (p : Ptr)
    (hp : p = st.ControllerInitCh) (hreg : p ∉ st.controllerConfigUpdateChan)
    (hev : ∀ q, Event.register q ∈ events → q ≠ p) :
    sentDuring p events st ≤ (if st.ControllerInitiated = true then 0 else 1) := by
  induction events generalizing st with
  | nil => simp [sentDuring]
  | cons e es ih =>
    have hev2 : ∀ q, Event.register q ∈ es → q ≠ p :=
      fun q hq => hev q (List.mem_cons_of_mem e hq)
    unfold sentDuring
    cases e with
    | apply order cm =>
      subst hp
      obtain ⟨hs, hi, hch, hr⟩ := apply_init order cm st hreg
      have ih2 := ih (ApplyControllerConfigChange order cm st).1 hch.symm (by rw [hr]; exact hreg)
        hev2
      simp only [State.sentBy, State.step]
      rw [hs]
      rw [hi] at ih2
      cases hinit : st.ControllerInitiated
      · rw [hinit] at ih2
        by_cases hpass : (ApplyControllerConfigChange order cm st).2 = none
        · simp only [hpass, Option.isNone_none, Bool.false_or, if_true] at ih2
          split <;> simp_all
        · have hsome : (ApplyControllerConfigChange order cm st).2.isNone = false := by
            cases hh : (ApplyControllerConfigChange order cm st).2 with
            | none => exact absurd hh hpass
            | some _ => rfl
          simp only [hsome, Bool.or_false] at ih2
          simp only [hpass, false_and, if_false, zero_add]
          simpa using ih2
      · rw [hinit] at ih2
        simp only [Bool.true_or, if_true] at ih2
        simp [ih2]
    | receive q =>
      have ih2 := ih (st.receive q) hp hreg hev2
      simpa [State.sentBy, State.step, State.receive] using ih2
    | register q =>
      have hq : q ≠ p := hev q (List.mem_cons_self _ _)
      have ih2 := ih (RegisterControllerConfigUpdateChan q st) hp
        (by
          simp only [RegisterControllerConfigUpdateChan, List.mem_append, List.mem_singleton]
          rintro (h | h)
          · exact hreg h
          · exact hq h.symm) hev2
      simpa [State.sentBy, State.step, RegisterControllerConfigUpdateChan] using ih2

/-- C11. Let `ControllerInitCh` not be registered as an update channel, neither
in the state `st` nor by the events of a run. Then the calls of
`ApplyControllerConfigChange` of the run together put at most one token on
`ControllerInitCh`, and none once `ControllerInitiated` is true, whatever
consumers receive in between. For a single call from `st`: it puts a token on
`ControllerInitCh` exactly when it passes validation, `ControllerInitiated` was
false and the channel has room (the guarded send cannot block), and then exactly
one; `ControllerInitiated` is true afterwards iff it was true before or the call
passed validation; a call that returns the validation error changes no channel
and leaves `ControllerInitiated` as it was. -/
theorem C11_init_signal_at_most_once (events : List configs.Event)
    (order : List (String × operatorConfig)) (cm : ConfigMap) (st : configs.State)
    (hreg : st.ControllerInitCh ∉ st.controllerConfigUpdateChan)
    (hev : ∀ q, configs.Event.register q ∈ events → q ≠ st.ControllerInitCh) :
    configs.sentDuring st.ControllerInitCh events st ≤
      (if st.ControllerInitiated = true then 0 else 1) ∧
    configs.tokensSent st.ControllerInitCh st
        (configs.ApplyControllerConfigChange order cm st).1 =
      (if (configs.ApplyControllerConfigChange order cm st).2 = none ∧
          st.ControllerInitiated = false ∧
          (st.chans st.ControllerInitCh).len < (st.chans st.ControllerInitCh).cap
        then 1 else 0) ∧
    (configs.ApplyControllerConfigChange order cm st).1.ControllerInitiated =
      (st.ControllerInitiated || (configs.ApplyControllerConfigChange order cm st).2.isNone) ∧
    ((configs.ApplyControllerConfigChange order cm st).2 ≠ none →
      (configs.ApplyControllerConfigChange order cm st).1.chans = st.chans ∧
      (configs.ApplyControllerConfigChange order cm st).1.ControllerInitiated =
        st.ControllerInitiated) := by
  obtain ⟨hs, hi, _, _⟩ := apply_init order cm st hreg
  refine ⟨sentDuring_init events st st.ControllerInitCh rfl hreg hev, hs, hi, ?_⟩
  intro hne
  rw [apply_failed order cm st hne]
  exact ⟨rfl, rfl⟩

/-- Witness of C11: from a fresh state, a call that fails validation, two calls
that pass it, with a consumer receiving the token in between, put one token on
`ControllerInitCh` in all, and the single failing call puts none. -/
theorem C11_init_signal_at_most_once_witness :
    configs.sentDuring configs.freshState.ControllerInitCh
        [ .apply configs.controllerVars
            { Name := "cicd-config", ResourceVersion := "1",
              Data := mapOf [("enableMail", "true")] },
          .apply configs.controllerVars
            { Name := "cicd-config", ResourceVersion := "2", Data := mapOf [] },
          .receive 0,
          .apply configs.controllerVars
            { Name := "cicd-config", ResourceVersion := "3", Data := mapOf [] } ]
        configs.freshState ≤ 1 ∧
    configs.tokensSent configs.freshState.ControllerInitCh configs.freshState
        (configs.ApplyControllerConfigChange configs.controllerVars
          { Name := "cicd-config", ResourceVersion := "1",
            Data := mapOf [("enableMail", "true")] } configs.freshState).1 = 0 :=
  have h := C11_init_signal_at_most_once
    [ .apply configs.controllerVars
        { Name := "cicd-config", ResourceVersion := "1",
          Data := mapOf [("enableMail", "true")] },
      .apply configs.controllerVars
        { Name := "cicd-config", ResourceVersion := "2", Data := mapOf [] },
      .receive 0,
      .apply configs.controllerVars
        { Name := "cicd-config", ResourceVersion := "3", Data := mapOf [] } ]
    configs.controllerVars
    { Name := "cicd-config", ResourceVersion := "1", Data := mapOf [("enableMail", "true")] }
    configs.freshState (by decide) (by simp)
  ⟨h.1, h.2.1.trans (by decide)⟩

/-- Registering channels appends them to the list of update channels, in order,
and touches nothing else. -/
theorem registerAll_fields (chs : List Ptr) (st : State) :
    (registerAll chs st).controllerConfigUpdateChan = st.controllerConfigUpdateChan ++ chs ∧
    (registerAll chs st).chans = st.chans ∧
    (registerAll chs st).ControllerInitiated = st.ControllerInitiated ∧
    (registerAll chs st).ControllerInitCh = st.ControllerInitCh ∧
    (registerAll chs st).store = st.store := by
  unfold registerAll
  induction chs generalizing st with
  | nil => simp
  | cons ch chs ih =>
    rw [List.foldl_cons]
    obtain ⟨h1, h2, h3, h4, h5⟩ := ih (RegisterControllerConfigUpdateChan ch st)
    refine ⟨?_, h2, h3, h4, h5⟩
    rw [h1]
    simp [RegisterControllerConfigUpdateChan]

/-- C12. Let the channels `chs` be registered through
`RegisterControllerConfigUpdateChan` on a state `st`, and let
`ApplyControllerConfigChange` be called then. Registration appends `chs` to the
list of update channels and changes no channel. One notification (one
registration of `p` met by the loop) adds exactly one token to `p` when its
buffer has room and leaves it unchanged when it is full, and touches no other
channel. A call that returns the validation error leaves the length of every
channel unchanged. A call that passes validation processes the registrations
one after the other, so that `p` ends with `len + n` tokens capped at its
capacity, `n` being the number of registrations of `p`, those made through `chs`
and those `st` already had (plus one when `p` is `ControllerInitCh` and the
package was not yet initiated). The capacity never changes and a length within
the capacity stays within it; the call is a total function of the state, it
waits on no channel. E.g. after registering channel 1, channel 2 and channel 1
again, channel 1 being empty with capacity 2 and channel 2 full with capacity 1,
a passing call leaves channel 1 with 2 tokens and channel 2 with 1; without the
registrations it leaves channel 1 empty. -/
theorem C12_update_channels_notified (order : List (String × operatorConfig))
    (cm : ConfigMap) (st : configs.State) (chs : List Ptr) (p : Ptr) :
    ((configs.registerAll chs st).controllerConfigUpdateChan =
      st.controllerConfigUpdateChan ++ chs) ∧
    ((configs.registerAll chs st).chans = st.chans) ∧
    ((st.notify p).chans p =
      if (st.chans p).len < (st.chans p).cap then
        { len := (st.chans p).len + 1, cap := (st.chans p).cap }
      else st.chans p) ∧
    (∀ q, q ≠ p → (st.notify p).chans q = st.chans q) ∧
    (((configs.ApplyControllerConfigChange order cm (configs.registerAll chs st)).1.chans p).len =
      if (configs.ApplyControllerConfigChange order cm (configs.registerAll chs st)).2 = none then
        max (st.chans p).len (min (st.chans p).cap ((st.chans p).len +
          (st.controllerConfigUpdateChan.count p + chs.count p +
            (if st.ControllerInitiated = false ∧ p = st.ControllerInitCh then 1 else 0))))
      else (st.chans p).len) ∧
    ((configs.ApplyControllerConfigChange order cm (configs.registerAll chs st)).1.chans p).cap =
      (st.chans p).cap ∧
    ((configs.ApplyControllerConfigChange order cm (configs.registerAll chs st)).1.chans p).len ≤
      max (st.chans p).len (st.chans p).cap ∧
    (((configs.ApplyControllerConfigChange configs.controllerVars
        { Name := "cicd-config", ResourceVersion := "1", Data := mapOf [] }
        (configs.RegisterControllerConfigUpdateChan 1
          (configs.RegisterControllerConfigUpdateChan 2
            (configs.RegisterControllerConfigUpdateChan 1
              { store := zeroStore, ControllerInitiated := true, ControllerInitCh := 0,
                controllerConfigUpdateChan := [],
                chans := fun q =>
                  if q = 1 then { len := 0, cap := 2 } else { len := 1, cap := 1 } })))
        ).1.chans 1).len = 2 ∧
      ((configs.ApplyControllerConfigChange configs.controllerVars
        { Name := "cicd-config", ResourceVersion := "1", Data := mapOf [] }
        (configs.RegisterControllerConfigUpdateChan 1
          (configs.RegisterControllerConfigUpdateChan 2
            (configs.RegisterControllerConfigUpdateChan 1
              { store := zeroStore, ControllerInitiated := true, ControllerInitCh := 0,
                controllerConfigUpdateChan := [],
                chans := fun q =>
                  if q = 1 then { len := 0, cap := 2 } else { len := 1, cap := 1 } })))
        ).1.chans 2).len = 1 ∧
      ((configs.ApplyControllerConfigChange configs.controllerVars
        { Name := "cicd-config", ResourceVersion := "1", Data := mapOf [] }
        { store := zeroStore, ControllerInitiated := true, ControllerInitCh := 0,
          controllerConfigUpdateChan := [],
          chans := fun q => if q = 1 then { len := 0, cap := 2 } else { len := 1, cap := 1 } }
        ).1.chans 1).len = 0) := by
  obtain ⟨hregs, hchans, hinit, hch, _⟩ := registerAll_fields chs st
  have hoff : (configs.registerAll chs st).offers.count p =
      st.controllerConfigUpdateChan.count p + chs.count p +
        (if st.ControllerInitiated = false ∧ p = st.ControllerInitCh then 1 else 0) := by
    rw [offers_count, hregs, hinit, hch, List.count_append]
  have hlen : ((configs.ApplyControllerConfigChange order cm
        (configs.registerAll chs st)).1.chans p).len =
      (if (configs.ApplyControllerConfigChange order cm (configs.registerAll chs st)).2 = none then
        max (st.chans p).len (min (st.chans p).cap ((st.chans p).len +
          (st.controllerConfigUpdateChan.count p + chs.count p +
            (if st.ControllerInitiated = false ∧ p = st.ControllerInitCh then 1 else 0))))
      else (st.chans p).len) ∧
      ((configs.ApplyControllerConfigChange order cm (configs.registerAll chs st)).1.chans p).cap =
        (st.chans p).cap := by
    cases h : (configs.ApplyControllerConfigChange order cm (configs.registerAll chs st)).2 with
    | some e =>
      have hne : (configs.ApplyControllerConfigChange order cm
          (configs.registerAll chs st)).2 ≠ none := by rw [h]; simp
      rw [apply_failed order cm _ hne]
      simp [hchans]
    | none =>
      obtain ⟨hc, _, _, _⟩ := apply_passed_fields order cm _ h p
      rw [hc, (iterate_trySend _ _).1, (iterate_trySend _ _).2, hoff, hchans]
      simp
  refine ⟨hregs, hchans, ?_, ?_, hlen.1, hlen.2, ?_, by decide⟩
  · simp only [configs.State.notify, if_true, configs.Chan.trySend]
  · intro q hq
    simp [configs.State.notify, hq]
  · rw [hlen.1]
    split <;> omega

end

/-! ## The trigger channel of the scheduler -/

theorem Schedule_full (s : scheduler.Scheduler) (h : s.caller.buf.length = s.caller.cap) :
    scheduler.Schedule s = s := by
  unfold scheduler.Schedule
  rw [if_pos h]

theorem Schedule_iterate_New (n : Nat) :
    (scheduler.Schedule^[n + 1] scheduler.New) = { caller := { buf := [1], cap := 1 } } := by
  induction n with
  | zero => rfl
  | succ n ih =>
    rw [Function.iterate_succ_apply', ih]
    rfl

/-- One caller running `Schedule` alone, statement by statement, does what
`Schedule` does. -/
theorem step_twice_eq_Schedule (s : scheduler.Scheduler) (busy : Bool)
    (h : s.caller.buf.length ≤ s.caller.cap) :
    ((scheduler.Callers.step
        (scheduler.Callers.step { sched := s, pcs := [.entry], loopBusy := busy } 0) 0).sched =
      scheduler.Schedule s) ∧
    (scheduler.Callers.step
        (scheduler.Callers.step { sched := s, pcs := [.entry], loopBusy := busy } 0) 0).pcs =
      [.returned] := by
  unfold scheduler.Schedule
  by_cases hf : s.caller.buf.length = s.caller.cap
  · simp [scheduler.Callers.step, hf]
  · have hlt : s.caller.buf.length < s.caller.cap := by omega
    simp [scheduler.Callers.step, hf, hlt]

/-- C13. On the trigger channel made by `New` (capacity 1): for every `n ≥ 1`,
`n` calls of `Schedule` with no receive in between leave exactly one token
queued; `Schedule` on a full channel changes nothing; and on a channel of
capacity 1 holding at most one token, calling `Schedule` twice gives the same
channel state as calling it once. -/
theorem C13_schedule_coalesces (n : Nat) (s : scheduler.Scheduler) (hn : 1 ≤ n)
    (hcap : s.caller.cap = 1) (hlen : s.caller.buf.length ≤ 1) :
    (scheduler.Schedule^[n] scheduler.New).caller.buf = [1] ∧
    (scheduler.Schedule^[n] scheduler.New).caller.buf.length = 1 ∧
    (s.caller.buf.length = s.caller.cap → scheduler.Schedule s = s) ∧
    scheduler.Schedule (scheduler.Schedule s) = scheduler.Schedule s := by
  obtain ⟨m, rfl⟩ : ∃ m, n = m + 1 := ⟨n - 1, by omega⟩
  rw [Schedule_iterate_New]
  refine ⟨rfl, rfl, Schedule_full s, ?_⟩
  by_cases hf : s.caller.buf.length = s.caller.cap
  · rw [Schedule_full s hf, Schedule_full s hf]
  · apply Schedule_full
    unfold scheduler.Schedule
    rw [if_neg hf]
    simp only [List.length_append, List.length_singleton]
    omega

/-- Witness of C13: five calls on a new scheduler leave one token. -/
theorem C13_schedule_coalesces_witness :
    (scheduler.Schedule^[5] scheduler.New).caller.buf = [1] ∧
    scheduler.Schedule (scheduler.Schedule scheduler.New) = scheduler.Schedule scheduler.New :=
  have h := C13_schedule_coalesces 5 scheduler.New (by decide) rfl (by decide)
  ⟨h.1, h.2.2.2⟩

/-- C14, the code as written. Three goroutines enter `Schedule` on a new
scheduler. All three pass the test `len(s.caller) == cap(s.caller)` while the
buffer is empty; the first sends, the dispatch loop receives that token and
starts its pass, the second sends and fills the buffer. The third now stands at
`s.caller <- 1` with a full buffer: it is blocked, its step changes nothing, and
it gets on only after the loop has ended its pass and received again. -/
theorem C14_schedule_can_block :
    (scheduler.threeCallers.run
        [.caller 0, .caller 1, .caller 2, .caller 0, .loop, .caller 1]).blocked 2 = true ∧
    (scheduler.threeCallers.run
        [.caller 0, .caller 1, .caller 2, .caller 0, .loop, .caller 1]).loopBusy = true ∧
    (scheduler.threeCallers.run
        [.caller 0, .caller 1, .caller 2, .caller 0, .loop, .caller 1, .caller 2]) =
      scheduler.threeCallers.run
        [.caller 0, .caller 1, .caller 2, .caller 0, .loop, .caller 1] ∧
    (scheduler.threeCallers.run
        [.caller 0, .caller 1, .caller 2, .caller 0, .loop, .caller 1,
          .loop, .loop, .caller 2]).pcs = [.returned, .returned, .returned] := by
  decide

/-! ## The comparator of the pool test -/

theorem strLess_iff (a b : String) : strLess a b = true ↔ a < b := by
  unfold strLess
  rw [decide_eq_true_eq]
  exact String.lt_iff_toList_lt.symm

theorem testCompare_eq (a b : JobNode) :
    testCompare a b =
      (decide (a.CreationTimestamp < b.CreationTimestamp) ||
        strLess a.identityString b.identityString) := rfl

/-- C15, the code as written. `testCompare` does put a node created strictly
earlier first, but it also puts a node with the smaller identity string first
whatever the creation times: for `ns/b` created at 0 and `ns/a` created at 1
both `compare(a, b)` and `compare(b, a)` are true. -/
theorem C15_compare_not_asymmetric :
    (∀ a b : JobNode, a.CreationTimestamp < b.CreationTimestamp → testCompare a b = true) ∧
    (∀ a b : JobNode, b.identityString < a.identityString → testCompare b a = true) ∧
    testCompare { Name := "b", Namespace := "ns", CreationTimestamp := 0 }
      { Name := "a", Namespace := "ns", CreationTimestamp := 1 } = true ∧
    testCompare { Name := "a", Namespace := "ns", CreationTimestamp := 1 }
      { Name := "b", Namespace := "ns", CreationTimestamp := 0 } = true := by
  refine ⟨?_, ?_, by decide, by decide⟩
  · intro a b h
    simp [testCompare_eq, h]
  · intro a b h
    simp [testCompare_eq, (strLess_iff _ _).2 h]

/-- C16. For two nodes with identical creation timestamps, `testCompare(a, b)` is
true iff the identity string `namespace_name` of `a` is less than that of `b`,
and it is never true both ways; in particular the node with the smaller identity
string comes first and not the other way round. -/
theorem C16_tie_break_by_identity (a b : JobNode)
    (hts : a.CreationTimestamp = b.CreationTimestamp) :
    (testCompare a b = true ↔ a.identityString < b.identityString) ∧
    (testCompare b a = true ↔ b.identityString < a.identityString) ∧
    ¬ (testCompare a b = true ∧ testCompare b a = true) := by
  have h1 : testCompare a b = true ↔ a.identityString < b.identityString := by
    rw [testCompare_eq, hts]
    simp [strLess_iff]
  have h2 : testCompare b a = true ↔ b.identityString < a.identityString := by
    rw [testCompare_eq, hts]
    simp [strLess_iff]
  refine ⟨h1, h2, ?_⟩
  rintro ⟨hab, hba⟩
  exact lt_asymm (h1.1 hab) (h2.1 hba)

/-- Witness of C16: created at the same instant, `ns/a` sorts before `ns/b` and
not the other way round. -/
theorem C16_tie_break_by_identity_witness :
    testCompare { Name := "a", Namespace := "ns", CreationTimestamp := 7 }
      { Name := "b", Namespace := "ns", CreationTimestamp := 7 } = true ∧
    testCompare { Name := "b", Namespace := "ns", CreationTimestamp := 7 }
      { Name := "a", Namespace := "ns", CreationTimestamp := 7 } = false :=
  have h := C16_tie_break_by_identity
    { Name := "a", Namespace := "ns", CreationTimestamp := 7 }
    { Name := "b", Namespace := "ns", CreationTimestamp := 7 } rfl
  have hab : testCompare { Name := "a", Namespace := "ns", CreationTimestamp := 7 }
      { Name := "b", Namespace := "ns", CreationTimestamp := 7 } = true := by decide
  ⟨hab, by
    cases hba : testCompare { Name := "b", Namespace := "ns", CreationTimestamp := 7 }
      { Name := "a", Namespace := "ns", CreationTimestamp := 7 }
    · rfl
    · exact absurd ⟨hab, hba⟩ h.2.2⟩

/-! ## The admission policy -/

theorem Remove_of_not_mem (p : OrderedPool) (id : Identity)
    (h : id ∉ p.map JobNode.identity) : p.Remove id = p := by
  unfold OrderedPool.Remove
  rw [List.filter_eq_self]
  intro n hn
  simp only [decide_eq_true_eq]
  intro hid
  exact h (List.mem_map.2 ⟨n, hn, hid⟩)

theorem Sync_perm_of_not_mem (compare : JobNode → JobNode → Bool) (p : OrderedPool)
    (n : JobNode) (h : n.identity ∉ p.map JobNode.identity) :
    (OrderedPool.Sync compare p n).1.Perm (n :: p) := by
  unfold OrderedPool.Sync
  simp only []
  rw [Remove_of_not_mem p n.identity h]
  exact insert_perm compare n p

/-- Insertion at the sorted position keeps a pool in comparator order when the
comparator is a strict order. -/
theorem insert_inOrder (compare : JobNode → JobNode → Bool) (hs : StrictComparator compare)
    (n : JobNode) (p : OrderedPool) (hp : p.InOrder compare) :
    (OrderedPool.insert compare n p).InOrder compare := by
  obtain ⟨hasym, htrans⟩ := hs
  unfold OrderedPool.InOrder at hp ⊢
  induction p with
  | nil => simp [OrderedPool.insert]
  | cons x xs ih =>
    rw [List.pairwise_cons] at hp
    obtain ⟨hx, hxs⟩ := hp
    unfold OrderedPool.insert
    split
    · next hnx =>
      refine List.pairwise_cons.2 ⟨?_, List.pairwise_cons.2 ⟨hx, hxs⟩⟩
      intro y hy
      rcases List.mem_cons.1 hy with rfl | hy
      · exact hasym n y hnx
      · cases hyn : compare y n with
        | false => rfl
        | true =>
          have := htrans y n x hyn hnx
          rw [hx y hy] at this
          cases this
    · next hnx =>
      refine List.pairwise_cons.2 ⟨?_, ih hxs⟩
      intro y hy
      rcases List.mem_cons.1 ((insert_perm compare n xs).mem_iff.1 hy) with rfl | hy
      · simpa using hnx
      · exact hx y hy

theorem Remove_inOrder (compare : JobNode → JobNode → Bool) (p : OrderedPool) (id : Identity)
    (hp : p.InOrder compare) : (p.Remove id).InOrder compare := by
  unfold OrderedPool.InOrder at hp ⊢
  exact hp.sublist (List.filter_sublist p)

theorem Sync_inOrder (compare : JobNode → JobNode → Bool) (hs : StrictComparator compare)
    (p : OrderedPool) (n : JobNode) (hp : p.InOrder compare) :
    (OrderedPool.Sync compare p n).1.InOrder compare := by
  unfold OrderedPool.Sync
  exact insert_inOrder compare hs n _ (Remove_inOrder compare p n.identity hp)

/-- `SyncJob` keeps both pools in comparator order. -/
theorem SyncJob_inOrder (compare : JobNode → JobNode → Bool) (hs : StrictComparator compare)
    (p : JobPool) (job : IntegrationJob) (hp : p.pending.InOrder compare)
    (hr : p.running.InOrder compare) :
    (p.SyncJob compare job).pending.InOrder compare ∧
    (p.SyncJob compare job).running.InOrder compare := by
  unfold JobPool.SyncJob
  cases job.State
  · exact ⟨Sync_inOrder compare hs _ _ hp, Remove_inOrder compare _ _ hr⟩
  · exact ⟨Remove_inOrder compare _ _ hp, Sync_inOrder compare hs _ _ hr⟩
  · exact ⟨Remove_inOrder compare _ _ hp, Remove_inOrder compare _ _ hr⟩
  · exact ⟨Remove_inOrder compare _ _ hp, Remove_inOrder compare _ _ hr⟩

/-- Every pool built by `SyncJob` calls under a strict order is well formed. -/
theorem syncAll_wellFormed (compare : JobNode → JobNode → Bool)
    (hs : StrictComparator compare) (jobs : List IntegrationJob) :
    (syncAll compare jobs).WellFormed compare := by
  have hord : (syncAll compare jobs).pending.InOrder compare ∧
      (syncAll compare jobs).running.InOrder compare := by
    induction jobs using List.reverseRecOn with
    | nil => exact ⟨List.Pairwise.nil, List.Pairwise.nil⟩
    | append_singleton jobs j ih =>
      rw [syncAll_snoc]
      exact SyncJob_inOrder compare hs _ j ih.1 ih.2
  obtain ⟨hp, hr, hnp, hnr⟩ := syncAll_invariant compare jobs
  refine ⟨?_, hord.1, hord.2⟩
  rw [List.map_append, List.nodup_append]
  refine ⟨hnp, hnr, ?_⟩
  intro x hx1 hx2
  have h1 := (hp x).1 hx1
  have h2 := (hr x).1 hx2
  rw [h1] at h2
  cases h2

/-- One promotion on pools holding pairwise different identities: the head of
the pending pool leaves it and joins the running pool. -/
theorem promote_cons (compare : JobNode → JobNode → Bool) (n : JobNode)
    (rest running : OrderedPool)
    (hnd : (((n :: rest) ++ running).map JobNode.identity).Nodup) :
    (JobPool.promote compare { pending := n :: rest, running := running }).pending = rest ∧
    (JobPool.promote compare { pending := n :: rest, running := running }).running.Perm
      (n :: running) ∧
    ((rest ++ (JobPool.promote compare { pending := n :: rest, running := running }).running).map
      JobNode.identity).Nodup := by
  have hn : n.identity ∉ running.map JobNode.identity := by
    intro h
    rw [List.cons_append, List.map_cons, List.nodup_cons, List.map_append, List.mem_append] at hnd
    exact hnd.1 (Or.inr h)
  have hperm := Sync_perm_of_not_mem compare running n hn
  refine ⟨rfl, hperm, ?_⟩
  have hp2 : ((rest ++ (OrderedPool.Sync compare running n).1).map JobNode.identity).Perm
      (((n :: rest) ++ running).map JobNode.identity) := by
    refine List.Perm.map _ ?_
    refine (List.Perm.append_left rest hperm).trans ?_
    exact (List.perm_middle).trans (List.Perm.refl _)
  exact hp2.nodup_iff.2 hnd

/-- The admission loop with enough fuel promotes the first pending nodes, as
many as the cap allows and as the external updates succeed for, and stops. -/
theorem admitLoop_spec (compare : JobNode → JobNode → Bool) (started : JobNode → Bool)
    (c : Int) (fuel : Nat) (pending running : OrderedPool) (hfuel : pending.length ≤ fuel)
    (hnd : ((pending ++ running).map JobNode.identity).Nodup) :
    JobPool.admitLoop compare started c fuel { pending := pending, running := running } =
      (JobPool.promote compare)^[min (min pending.length (c - running.length).toNat)
          (pending.takeWhile started).length]
        { pending := pending, running := running } ∧
    (JobPool.admitLoop compare started c fuel { pending := pending, running := running }).pending =
      pending.drop (min (min pending.length (c - running.length).toNat)
        (pending.takeWhile started).length) ∧
    (JobPool.admitLoop compare started c fuel
        { pending := pending, running := running }).running.Perm
      (pending.take (min (min pending.length (c - running.length).toNat)
        (pending.takeWhile started).length) ++ running) := by
  induction fuel generalizing pending running with
  | zero =>
    have hp : pending = [] := List.length_eq_zero.1 (Nat.le_zero.1 hfuel)
    subst hp
    simp [JobPool.admitLoop]
  | succ fuel ih =>
    unfold JobPool.admitLoop
    by_cases hc : (running.length : Int) < c ∧ 0 < pending.length
    · simp only [OrderedPool.Len, hc, and_self, if_true]
      obtain ⟨hlt, hpos⟩ := hc
      cases pending with
      | nil => simp at hpos
      | cons n rest =>
        simp only []
        by_cases hst : started n = true
        · simp only [hst, if_true]
          obtain ⟨hpend, hperm, hnd2⟩ := promote_cons compare n rest running hnd
          have htw : ((n :: rest).takeWhile started).length =
              (rest.takeWhile started).length + 1 := by
            simp [List.takeWhile, hst]
          have hm : min (min (n :: rest).length (c - running.length).toNat)
                ((n :: rest).takeWhile started).length =
              min (min rest.length (c - (running.length + 1 : Nat)).toNat)
                (rest.takeWhile started).length + 1 := by
            rw [htw]
            simp only [List.length_cons]
            omega
          have hlen : (JobPool.promote compare
              { pending := n :: rest, running := running }).running.length =
                running.length + 1 := by
            rw [hperm.length_eq]; rfl
          have hfuel2 : rest.length ≤ fuel := by
            simp only [List.length_cons] at hfuel
            omega
          have heq : JobPool.promote compare { pending := n :: rest, running := running } =
              { pending := rest,
                running := (JobPool.promote compare
                  { pending := n :: rest, running := running }).running } := rfl
          obtain ⟨h1, h2, h3⟩ := ih rest _ hfuel2 hnd2
          rw [hlen] at h1 h2 h3
          rw [heq, hm, Function.iterate_succ_apply]
          refine ⟨by rw [h1, ← heq], by rw [h2]; rfl, ?_⟩
          refine h3.trans ?_
          rw [List.take_succ_cons]
          refine (List.Perm.append_left _ hperm).trans ?_
          exact List.perm_middle
        · have htw : (n :: rest).takeWhile started = [] := by
            simp [List.takeWhile, hst]
          simp [hst, htw]
    · simp only [OrderedPool.Len, hc, if_false]
      have hm : min (min pending.length (c - running.length).toNat)
          (pending.takeWhile started).length = 0 := by
        rw [not_and_or] at hc
        rcases hc with h | h
        · omega
        · omega
      rw [hm]
      simp

/-- Promotions alone: `j` of them pop the first `j` pending nodes. -/
theorem promote_iterate (compare : JobNode → JobNode → Bool) (j : Nat)
    (pending running : OrderedPool) (hj : j ≤ pending.length)
    (hnd : ((pending ++ running).map JobNode.identity).Nodup) :
    ((JobPool.promote compare)^[j] { pending := pending, running := running }).pending =
      pending.drop j ∧
    ((JobPool.promote compare)^[j] { pending := pending, running := running }).running.Perm
      (pending.take j ++ running) := by
  have h := admitLoop_spec compare (fun _ => true) ((running.length : Int) + j) pending.length
    pending running (Nat.le_refl _) hnd
  have htw : (pending.takeWhile (fun _ => true)).length = pending.length := by
    rw [List.takeWhile_eq_self_iff.2 (fun _ _ => rfl)]
  have hm : min (min pending.length ((running.length : Int) + j - running.length).toNat)
      (pending.takeWhile (fun _ => true)).length = j := by
    rw [htw]
    omega
  rw [hm] at h
  obtain ⟨h1, h2, h3⟩ := h
  rw [h1] at h2 h3
  exact ⟨h2, h3⟩

/-- One promotion keeps a well-formed pool well formed. -/
theorem promote_wellFormed (compare : JobNode → JobNode → Bool) (hs : StrictComparator compare)
    (p : JobPool) (hp : p.WellFormed compare) : (p.promote compare).WellFormed compare := by
  obtain ⟨pending, running⟩ := p
  obtain ⟨hnd, hpo, hro⟩ := hp
  cases pending with
  | nil => exact ⟨hnd, hpo, hro⟩
  | cons n rest =>
    obtain ⟨_, _, hnd2⟩ := promote_cons compare n rest running hnd
    refine ⟨hnd2, ?_, Sync_inOrder compare hs running n hro⟩
    exact (List.pairwise_cons.1 hpo).2

theorem promote_iterate_wellFormed (compare : JobNode → JobNode → Bool)
    (hs : StrictComparator compare) (j : Nat) (p : JobPool) (hp : p.WellFormed compare) :
    ((JobPool.promote compare)^[j] p).WellFormed compare := by
  induction j with
  | zero => exact hp
  | succ j ih =>
    rw [Function.iterate_succ_apply']
    exact promote_wellFormed compare hs _ ih

/-- `SyncJob` keeps a well-formed pool well formed. -/
theorem SyncJob_wellFormed (compare : JobNode → JobNode → Bool) (hs : StrictComparator compare)
    (p : JobPool) (job : IntegrationJob) (hp : p.WellFormed compare) :
    (p.SyncJob compare job).WellFormed compare := by
  obtain ⟨hnd, hpo, hro⟩ := hp
  obtain ⟨ho1, ho2⟩ := SyncJob_inOrder compare hs p job hpo hro
  refine ⟨?_, ho1, ho2⟩
  rw [List.map_append, List.nodup_append] at hnd ⊢
  obtain ⟨hnp, hnr, hdis⟩ := hnd
  unfold JobPool.SyncJob
  cases job.State
  · refine ⟨nodup_Sync compare _ _ hnp, nodup_Remove _ _ hnr, ?_⟩
    intro x hx1 hx2
    rw [mem_Sync, node_identity] at hx1
    rw [mem_Remove] at hx2
    rcases hx1 with h | h
    · exact hx2.2 h
    · exact hdis h.1 hx2.1
  · refine ⟨nodup_Remove _ _ hnp, nodup_Sync compare _ _ hnr, ?_⟩
    intro x hx1 hx2
    rw [mem_Sync, node_identity] at hx2
    rw [mem_Remove] at hx1
    rcases hx2 with h | h
    · exact hx1.2 h
    · exact hdis hx1.1 h.1
  all_goals
    refine ⟨nodup_Remove _ _ hnp, nodup_Remove _ _ hnr, ?_⟩
    intro x hx1 hx2
    rw [mem_Remove] at hx1 hx2
    exact hdis hx1.1 hx2.1

/-- Feeding the listed items through `SyncJob` keeps a well-formed pool well
formed. -/
theorem foldl_SyncJob_wellFormed (compare : JobNode → JobNode → Bool)
    (hs : StrictComparator compare) (items : List IntegrationJob) (p : JobPool)
    (hp : p.WellFormed compare) :
    (items.foldl (JobPool.SyncJob compare) p).WellFormed compare := by
  induction items generalizing p with
  | nil => exact hp
  | cons job items ih =>
    rw [List.foldl_cons]
    exact ih _ (SyncJob_wellFormed compare hs p job hp)

/-- Where the leading run of successful external updates ends short of the list,
the next item is one whose update fails. -/
theorem head_drop_takeWhile (started : JobNode → Bool) (l : List JobNode)
    (h : (l.takeWhile started).length < l.length) :
    ∃ n, (l.drop (l.takeWhile started).length).head? = some n ∧ started n = false := by
  induction l with
  | nil => simp at h
  | cons x xs ih =>
    by_cases hx : started x = true
    · have htw : (x :: xs).takeWhile started = x :: xs.takeWhile started := by
        simp [List.takeWhile, hx]
      rw [htw] at h ⊢
      simp only [List.length_cons, List.drop_succ_cons] at h ⊢
      exact ih (by omega)
    · have htw : (x :: xs).takeWhile started = [] := by
        simp [List.takeWhile, hx]
      rw [htw]
      exact ⟨x, rfl, by simpa using hx⟩

theorem byCreationThenIdentity_iff (a b : JobNode) :
    byCreationThenIdentity a b = true ↔
      (a.CreationTimestamp < b.CreationTimestamp ∨
        (a.CreationTimestamp = b.CreationTimestamp ∧
          a.Namespace ++ "_" ++ a.Name < b.Namespace ++ "_" ++ b.Name)) := by
  unfold byCreationThenIdentity
  rw [Bool.or_eq_true, Bool.and_eq_true, decide_eq_true_eq, decide_eq_true_eq, strLess_iff]

/-- The ordering key of the spec, creation timestamp then identity string, is a
strict order. -/
theorem byCreationThenIdentity_strict : StrictComparator byCreationThenIdentity := by
  constructor
  · intro a b hab
    rw [← Bool.not_eq_true]
    intro hba
    rw [byCreationThenIdentity_iff] at hab hba
    rcases hab with h1 | ⟨h1, h2⟩ <;> rcases hba with g1 | ⟨g1, g2⟩
    · omega
    · omega
    · omega
    · exact lt_asymm h2 g2
  · intro a b c hab hbc
    rw [byCreationThenIdentity_iff] at hab hbc ⊢
    rcases hab with h1 | ⟨h1, h2⟩ <;> rcases hbc with g1 | ⟨g1, g2⟩
    · left; omega
    · left; omega
    · left; omega
    · right; exact ⟨by omega, lt_trans h2 g2⟩

/-- C17, counterexample. `a` created at 0 and `b` created at 1, both Pending,
cap 1, and the external update for `a` fails in this pass: the pass promotes
nothing, `a` and `b` stay pending and nothing runs, while
`min(k, max(c - r, 0))` is 1 for `k = 2`, `r = 0`, `c = 1`. -/
theorem C17_counterexample :
    dispatchPass byCreationThenIdentity (fun _ => false) 1
        [ jobForTest "a" "default" 0, jobForTest "b" "default" 1 ] New =
      { pending := [{ Name := "a", Namespace := "default", CreationTimestamp := 0 },
                    { Name := "b", Namespace := "default", CreationTimestamp := 1 }],
        running := [] } ∧
    ([ jobForTest "a" "default" 0, jobForTest "b" "default" 1 ].foldl
      (JobPool.SyncJob byCreationThenIdentity) New).pending.Len = 2 ∧
    ([ jobForTest "a" "default" 0, jobForTest "b" "default" 1 ].foldl
      (JobPool.SyncJob byCreationThenIdentity) New).running.Len = 0 ∧
    JobPool.admitted (fun _ => false) 1
      ([ jobForTest "a" "default" 0, jobForTest "b" "default" 1 ].foldl
        (JobPool.SyncJob byCreationThenIdentity) New) = 0 ∧
    min (2 : Int) (max (1 - 0) 0) = 1 := by
  decide

/-- C17, amended. Let the comparator be a strict order (the ordering key of the
spec, creation timestamp then identity string, is one) and let the pools be well
formed: pairwise different identities, each pool in comparator order (the empty
pools are, and `SyncJob`, the feeding of the listed items through it at the start
of a pass, and the admission policy keep them so). With `k` items
pending, `r` running and cap `c`, the admission policy of a dispatch pass makes
`m` promotions, where `m` is the smallest of `k`, `max(c - r, 0)` and the number
of leading pending items whose external update succeeds: at most
`min(k, max(c - r, 0))`, and exactly that many when no external update fails.
The promoted nodes are the first `m` of the pending pool, which is in comparator
order, so no node left pending comes before a promoted one by the comparator;
the others stay pending in order. Every promotion pops the head of the pending
pool, takes one node off it and adds one to the running pool; `running.Len()`
ends, and stays all along, at most `max(c, r)`. The pass stops with its loop
condition false or at a head whose external update failed, which remains
pending. E.g. `a` created at 0 and `b` created at 1, both Pending, cap 1, no
failure: the pass leaves `b` pending and `a` running. -/
theorem C17_admission_policy (compare : JobNode → JobNode → Bool) (started : JobNode → Bool)
    (c : Int) (p : JobPool) (hcmp : StrictComparator compare) (hwf : p.WellFormed compare) :
    ((p.admitted started c : Int) ≤ min (p.pending.Len : Int) (max (c - p.running.Len) 0)) ∧
    ((∀ n ∈ p.pending, started n = true) →
      (p.admitted started c : Int) = min (p.pending.Len : Int) (max (c - p.running.Len) 0)) ∧
    p.admission compare started c = (JobPool.promote compare)^[p.admitted started c] p ∧
    (p.admission compare started c).pending = p.pending.drop (p.admitted started c) ∧
    (p.admission compare started c).running.Perm
      (p.pending.take (p.admitted started c) ++ p.running) ∧
    p.pending.InOrder compare ∧
    (∀ a ∈ p.pending.take (p.admitted started c), ∀ b ∈ p.pending.drop (p.admitted started c),
      compare b a = false) ∧
    (p.admission compare started c).pending.Len = p.pending.Len - p.admitted started c ∧
    (p.admission compare started c).running.Len = p.running.Len + p.admitted started c ∧
    ((p.admission compare started c).running.Len : Int) ≤ max c p.running.Len ∧
    (¬ (((p.admission compare started c).running.Len : Int) < c ∧
          0 < (p.admission compare started c).pending.Len) ∨
      ∃ n, (p.admission compare started c).pending.head? = some n ∧ started n = false) ∧
    (∀ j, j < p.admitted started c →
      ((JobPool.promote compare)^[j] p).pending = p.pending.drop j ∧
      ((JobPool.promote compare)^[j + 1] p).pending =
        ((JobPool.promote compare)^[j] p).pending.tail ∧
      ((JobPool.promote compare)^[j + 1] p).pending.Len + 1 =
        ((JobPool.promote compare)^[j] p).pending.Len ∧
      ((JobPool.promote compare)^[j + 1] p).running.Len =
        ((JobPool.promote compare)^[j] p).running.Len + 1 ∧
      (((JobPool.promote compare)^[j + 1] p).running.Len : Int) ≤ max c p.running.Len) ∧
    (p.admission compare started c).WellFormed compare ∧
    (∀ job, (p.SyncJob compare job).WellFormed compare) ∧
    (∀ items, (items.foldl (JobPool.SyncJob compare) p).WellFormed compare ∧
      dispatchPass compare started c items p =
        (items.foldl (JobPool.SyncJob compare) p).admission compare started c) ∧
    New.WellFormed compare ∧
    StrictComparator byCreationThenIdentity ∧
    dispatchPass byCreationThenIdentity (fun _ => true) 1
        [ jobForTest "a" "default" 0, jobForTest "b" "default" 1 ] New =
      { pending := [{ Name := "b", Namespace := "default", CreationTimestamp := 1 }],
        running := [{ Name := "a", Namespace := "default", CreationTimestamp := 0 }] } := by
  have hwf0 := hwf
  have hsync : ∀ job, (p.SyncJob compare job).WellFormed compare :=
    fun job => SyncJob_wellFormed compare hcmp p job hwf
  have hpass : ∀ items, (items.foldl (JobPool.SyncJob compare) p).WellFormed compare ∧
      dispatchPass compare started c items p =
        (items.foldl (JobPool.SyncJob compare) p).admission compare started c :=
    fun items => ⟨foldl_SyncJob_wellFormed compare hcmp items p hwf, rfl⟩
  obtain ⟨pending, running⟩ := p
  obtain ⟨hnd, hpo, hro⟩ := hwf
  simp only [] at hnd hpo hro
  obtain ⟨h1, h2, h3⟩ :=
    admitLoop_spec compare started c pending.length pending running (Nat.le_refl _) hnd
  have hk : JobPool.admitted started c { pending := pending, running := running } =
      min (min pending.length (c - running.length).toNat)
        (pending.takeWhile started).length := rfl
  have hadm : JobPool.admission compare started c { pending := pending, running := running } =
      JobPool.admitLoop compare started c pending.length
        { pending := pending, running := running } := rfl
  have hwfa : (JobPool.admitLoop compare started c pending.length
      { pending := pending, running := running }).WellFormed compare := by
    rw [h1]
    exact promote_iterate_wellFormed compare hcmp _ _ hwf0
  rw [hadm, hk]
  generalize hm : min (min pending.length (c - running.length).toNat)
    (pending.takeWhile started).length = m at h1 h2 h3 ⊢
  have htwle : (pending.takeWhile started).length ≤ pending.length :=
    (List.takeWhile_sublist started).length_le
  have hlenp : (pending.drop m).length = pending.length - m := List.length_drop _ _
  have hlenr : (JobPool.admitLoop compare started c pending.length
      { pending := pending, running := running }).running.length = running.length + m := by
    rw [h3.length_eq, List.length_append, List.length_take]
    omega
  refine ⟨?_, ?_, h1, h2, h3, hpo, ?_, ?_, hlenr, ?_, ?_, ?_, hwfa, hsync, hpass,
    ⟨List.nodup_nil, List.Pairwise.nil, List.Pairwise.nil⟩, byCreationThenIdentity_strict,
    by decide⟩
  · simp only [OrderedPool.Len]; omega
  · intro hall
    have htw : (pending.takeWhile started).length = pending.length := by
      rw [List.takeWhile_eq_self_iff.2 hall]
    simp only [OrderedPool.Len]; omega
  · have hsplit : (pending.take m ++ pending.drop m).Pairwise
        (fun a b => compare b a = false) := by
      rw [List.take_append_drop]; exact hpo
    exact (List.pairwise_append.1 hsplit).2.2
  · simp only [OrderedPool.Len]; rw [h2, hlenp]
  · simp only [OrderedPool.Len]; rw [hlenr]; omega
  · simp only [OrderedPool.Len]
    rw [hlenr, h2, hlenp]
    by_cases hlt : (pending.takeWhile started).length < pending.length ∧
        m = (pending.takeWhile started).length
    · right
      rw [hlt.2]
      exact head_drop_takeWhile started pending hlt.1
    · left
      omega
  · intro j hj
    have hj1 : j + 1 ≤ pending.length := by omega
    have hj0 : j ≤ pending.length := by omega
    obtain ⟨a1, a2⟩ := promote_iterate compare (j + 1) pending running hj1 hnd
    obtain ⟨b1, b2⟩ := promote_iterate compare j pending running hj0 hnd
    refine ⟨b1, ?_, ?_⟩
    · rw [a1, b1, List.tail_drop]
    simp only [OrderedPool.Len]
    rw [a1, b1, a2.length_eq, b2.length_eq]
    simp only [List.length_drop, List.length_append, List.length_take]
    refine ⟨by omega, by omega, ?_⟩
    push_cast
    omega

/-- Witness of C17: the seven pending jobs of the pool test, ordered by creation
timestamp then identity string, under the cap 5, with the external update
failing for the job named `4`: three jobs are promoted, four stay pending. -/
theorem C17_admission_policy_witness :
    StrictComparator byCreationThenIdentity ∧
    (syncAll byCreationThenIdentity testJobs).WellFormed byCreationThenIdentity ∧
    ((syncAll byCreationThenIdentity testJobs).admission byCreationThenIdentity
      (fun n => decide (n.Name ≠ "4")) 5).pending.Len = 4 ∧
    ((syncAll byCreationThenIdentity testJobs).admission byCreationThenIdentity
      (fun n => decide (n.Name ≠ "4")) 5).running.Len = 3 :=
  have h := C17_admission_policy byCreationThenIdentity (fun n => decide (n.Name ≠ "4")) 5
    (syncAll byCreationThenIdentity testJobs) byCreationThenIdentity_strict (by decide)
  ⟨byCreationThenIdentity_strict, by decide, h.2.2.2.2.2.2.2.1.trans (by decide),
    h.2.2.2.2.2.2.2.2.1.trans (by decide)⟩

section
open fake

/-! ## Labels of the fake git client -/

theorem findLabel_none (label : String) (ls : List IssueLabel) (i : Nat)
    (h : ∀ l ∈ ls, l.Name ≠ label) : findLabel label ls i = -1 := by
  induction ls generalizing i with
  | nil => rfl
  | cons l ls ih =>
    unfold findLabel
    rw [if_neg (h l (List.mem_cons_self l ls))]
    exact ih (i + 1) (fun x hx => h x (List.mem_cons_of_mem l hx))

theorem findLabel_first (label : String) (pre : List IssueLabel) (l : IssueLabel)
    (post : List IssueLabel) (i : Nat) (hl : l.Name = label)
    (hpre : ∀ x ∈ pre, x.Name ≠ label) :
    findLabel label (pre ++ l :: post) i = ((i + pre.length : Nat) : Int) := by
  induction pre generalizing i with
  | nil => simp [findLabel, hl]
  | cons x pre ih =>
    rw [List.cons_append]
    unfold findLabel
    rw [if_neg (hpre x (List.mem_cons_self x pre))]
    rw [ih (i + 1) (fun y hy => hpre y (List.mem_cons_of_mem x hy))]
    simp only [List.length_cons]
    congr 1
    omega

/-- Without a label of that name `DeleteLabel` leaves the list as it is. -/
theorem removeLabel_absent (labels : List IssueLabel) (label : String)
    (h : ∀ l ∈ labels, l.Name ≠ label) : removeLabel labels label = labels := by
  unfold removeLabel
  simp only [findLabel_none label labels 0 h]
  rfl

/-- `DeleteLabel` cuts the first label of that name out of the list. -/
theorem removeLabel_first (label : String) (pre : List IssueLabel) (l : IssueLabel)
    (post : List IssueLabel) (hl : l.Name = label) (hpre : ∀ x ∈ pre, x.Name ≠ label) :
    removeLabel (pre ++ l :: post) label = pre ++ post := by
  unfold removeLabel
  simp only [findLabel_first label pre l post 0 hl hpre, Nat.zero_add]
  have hnonneg : ((pre.length : Nat) : Int) ≥ 0 := Int.ofNat_nonneg _
  rw [if_pos hnonneg]
  simp only [Int.toNat_ofNat]
  have htake : (pre ++ l :: post).take pre.length = pre := List.take_left' rfl
  have hdrop : (pre ++ l :: post).drop (pre.length + 1) = post := by
    rw [show pre ++ l :: post = (pre ++ [l]) ++ post by simp]
    exact List.drop_left' (by simp)
  rw [htake, hdrop]
  split
  · next h =>
    have hp : post = [] := by
      simp only [List.length_append, List.length_cons] at h
      apply List.length_eq_zero.1
      omega
    rw [hp, List.append_nil]
  · rfl

/-- Every list either has no label of that name or splits at the first one. -/
theorem label_split (label : String) (labels : List IssueLabel) :
    (∀ l ∈ labels, l.Name ≠ label) ∨
    ∃ pre l post, labels = pre ++ l :: post ∧ l.Name = label ∧ ∀ x ∈ pre, x.Name ≠ label := by
  induction labels with
  | nil => left; intro l hl; cases hl
  | cons a ls ih =>
    by_cases ha : a.Name = label
    · right; exact ⟨[], a, ls, rfl, ha, fun x hx => by cases hx⟩
    · rcases ih with h | ⟨pre, l, post, hls, hl, hpre⟩
      · left
        intro x hx
        rcases List.mem_cons.1 hx with rfl | hx
        · exact ha
        · exact h x hx
      · right
        refine ⟨a :: pre, l, post, by rw [hls]; rfl, hl, ?_⟩
        intro x hx
        rcases List.mem_cons.1 hx with rfl | hx
        · exact ha
        · exact hpre x hx

theorem countNamed_removeLabel (label : String) (labels : List IssueLabel) :
    countNamed label (removeLabel labels label) = countNamed label labels - 1 := by
  rcases label_split label labels with h | ⟨pre, l, post, rfl, hl, hpre⟩
  · rw [removeLabel_absent labels label h]
    have : countNamed label labels = 0 := by
      unfold countNamed
      rw [List.countP_eq_zero]
      intro x hx
      simpa using h x hx
    omega
  · rw [removeLabel_first label pre l post hl hpre]
    unfold countNamed
    simp [List.countP_append, List.countP_cons, hl]

theorem DeleteLabel_of_labels (repoName : String) (id : Int) (label : String) (st : State)
    (L : List IssueLabel) (hL : st.labels repoName id = some L) :
    (DeleteLabel repoName id label st).2 = none ∧
    (DeleteLabel repoName id label st).1.labels repoName id = some (removeLabel L label) := by
  unfold State.labels at hL
  unfold DeleteLabel State.labels
  cases hr : st.Repos repoName with
  | none => simp [hr] at hL
  | some repo =>
    cases hp : repo.PullRequests id with
    | none => simp [hr, hp] at hL
    | some pr =>
      simp only [hr, hp, Option.some.injEq] at hL
      subst hL
      simp [hr, hp]

theorem labels_of_DeleteLabel_nil (repoName : String) (id : Int) (label : String) (st : State)
    (h : (DeleteLabel repoName id label st).2 = none) :
    ∃ L, st.labels repoName id = some L := by
  unfold DeleteLabel at h
  unfold State.labels
  cases hr : st.Repos repoName with
  | none => simp [hr] at h
  | some repo =>
    cases hp : repo.PullRequests id with
    | none => simp [hr, hp] at h
    | some pr => exact ⟨(st.prs pr).Labels, by simp [hp]⟩

theorem SetLabel_of_labels (c : Client) (id : Int) (label : String) (st : State)
    (L : List IssueLabel) (hL : st.labels c.Repository id = some L) :
    (c.SetLabel id label st).2 = none ∧
    (c.SetLabel id label st).1.labels c.Repository id = some (L ++ [{ Name := label }]) := by
  unfold State.labels at hL
  unfold Client.SetLabel State.labels
  cases hr : st.Repos c.Repository with
  | none => simp [hr] at hL
  | some repo =>
    cases hp : repo.PullRequests id with
    | none => simp [hr, hp] at hL
    | some pr =>
      simp only [hr, hp, Option.some.injEq] at hL
      subst hL
      simp [hr, hp]

/-- C18, counterexample. `SetLabel` twice with the same name, then `DeleteLabel`
of that name: `nil` is returned and the pull request still carries a label of
that name. -/
theorem C18_counterexample :
    (DeleteLabel "tmax/cicd" 1 "lgtm"
      (Client.SetLabel { Repository := "tmax/cicd" } 1 "lgtm"
        (Client.SetLabel { Repository := "tmax/cicd" } 1 "lgtm" (demoState [])).1).1).2 = none ∧
    (DeleteLabel "tmax/cicd" 1 "lgtm"
      (Client.SetLabel { Repository := "tmax/cicd" } 1 "lgtm"
        (Client.SetLabel { Repository := "tmax/cicd" } 1 "lgtm" (demoState [])).1).1).1.labels
      "tmax/cicd" 1 = some [{ Name := "lgtm" }] := by
  decide

/-- C18, amended. Whenever `DeleteLabel(repo, id, label)` returns `nil`, the pull
request exists and carries one label named `label` fewer than before (none fewer
if it had none); so no label of that name is left when it carried at most one
before. -/
theorem C18_DeleteLabel_removes_one (repoName : String) (id : Int) (label : String)
    (st : fake.State) (h : (DeleteLabel repoName id label st).2 = none) :
    ∃ before after, st.labels repoName id = some before ∧
      (DeleteLabel repoName id label st).1.labels repoName id = some after ∧
      countNamed label after = countNamed label before - 1 ∧
      (countNamed label before ≤ 1 → ∀ l ∈ after, l.Name ≠ label) := by
  obtain ⟨L, hL⟩ := labels_of_DeleteLabel_nil repoName id label st h
  refine ⟨L, removeLabel L label, hL, (DeleteLabel_of_labels repoName id label st L hL).2,
    countNamed_removeLabel label L, ?_⟩
  intro hle l hl hname
  have hz : countNamed label (removeLabel L label) = 0 := by
    rw [countNamed_removeLabel]; omega
  unfold countNamed at hz
  rw [List.countP_eq_zero] at hz
  exact hz l hl (by simpa using hname)

/-- Witness of C18 (amended): a pull request labelled `lgtm`, `hold`. -/
theorem C18_DeleteLabel_removes_one_witness :
    ∃ before after,
      (demoState [{ Name := "lgtm" }, { Name := "hold" }]).labels "tmax/cicd" 1 = some before ∧
      (DeleteLabel "tmax/cicd" 1 "lgtm"
        (demoState [{ Name := "lgtm" }, { Name := "hold" }])).1.labels "tmax/cicd" 1 =
        some after ∧
      countNamed "lgtm" after = countNamed "lgtm" before - 1 ∧
      (countNamed "lgtm" before ≤ 1 → ∀ l ∈ after, l.Name ≠ "lgtm") :=
  C18_DeleteLabel_removes_one "tmax/cicd" 1 "lgtm"
    (demoState [{ Name := "lgtm" }, { Name := "hold" }]) (by decide)

/-- C19. For an existing repository and pull request with label list `L`:
`DeleteLabel` returns `nil`; when no label of `L` has the name the list is
unchanged; otherwise the list splits as `pre ++ l :: post` at the first label
`l` of that name and becomes `pre ++ post`, one shorter, the other labels in
their order. And `SetLabel(id, label)` followed by `DeleteLabel(id, label)`
gives `L` back when no label of `L` had the name. -/
theorem C19_DeleteLabel_first_occurrence (c : Client) (id : Int) (label : String)
    (st : fake.State) (L : List IssueLabel) (hL : st.labels c.Repository id = some L) :
    (c.DeleteLabel id label st).2 = none ∧
    ((∀ l ∈ L, l.Name ≠ label) ∧ (c.DeleteLabel id label st).1.labels c.Repository id = some L ∨
      ∃ pre l post, L = pre ++ l :: post ∧ l.Name = label ∧ (∀ x ∈ pre, x.Name ≠ label) ∧
        (c.DeleteLabel id label st).1.labels c.Repository id = some (pre ++ post) ∧
        (pre ++ post).length + 1 = L.length) ∧
    ((∀ l ∈ L, l.Name ≠ label) →
      (c.DeleteLabel id label (c.SetLabel id label st).1).2 = none ∧
      (c.DeleteLabel id label (c.SetLabel id label st).1).1.labels c.Repository id = some L) := by
  obtain ⟨hnil, hafter⟩ := DeleteLabel_of_labels c.Repository id label st L hL
  refine ⟨hnil, ?_, ?_⟩
  · rcases label_split label L with h | ⟨pre, l, post, hsplit, hl, hpre⟩
    · left
      refine ⟨h, ?_⟩
      rw [← removeLabel_absent L label h]
      exact hafter
    · right
      refine ⟨pre, l, post, hsplit, hl, hpre, ?_, ?_⟩
      · rw [← removeLabel_first label pre l post hl hpre, ← hsplit]
        exact hafter
      · rw [hsplit]; simp only [List.length_append, List.length_cons]; omega
  · intro h
    obtain ⟨_, hset⟩ := SetLabel_of_labels c id label st L hL
    obtain ⟨hnil2, hafter2⟩ := DeleteLabel_of_labels c.Repository id label _ _ hset
    refine ⟨hnil2, ?_⟩
    have hrm : removeLabel (L ++ [{ Name := label }]) label = L := by
      have := removeLabel_first label L { Name := label } [] rfl h
      simpa using this
    rw [← hrm]
    exact hafter2

/-- Witness of C19: on a pull request labelled `hold`, `lgtm`, `hold`, deleting
`hold` leaves `lgtm`, `hold`. -/
theorem C19_DeleteLabel_first_occurrence_witness :
    (Client.DeleteLabel { Repository := "tmax/cicd" } 1 "hold"
      (demoState [{ Name := "hold" }, { Name := "lgtm" }, { Name := "hold" }])).2 = none ∧
    (Client.DeleteLabel { Repository := "tmax/cicd" } 1 "hold"
      (demoState [{ Name := "hold" }, { Name := "lgtm" }, { Name := "hold" }])).1.labels
      "tmax/cicd" 1 = some [{ Name := "lgtm" }, { Name := "hold" }] :=
  ⟨(C19_DeleteLabel_first_occurrence { Repository := "tmax/cicd" } 1 "hold"
      (demoState [{ Name := "hold" }, { Name := "lgtm" }, { Name := "hold" }])
      [{ Name := "hold" }, { Name := "lgtm" }, { Name := "hold" }] (by decide)).1,
    by decide⟩

end

/-! ## Order of the bindings -/

theorem Store_ext_read (s t : Store) (h : ∀ y, s.read y = t.read y) : s = t := by
  obtain ⟨s1, s2, s3⟩ := s
  obtain ⟨t1, t2, t3⟩ := t
  have h1 : s1 = t1 := by
    funext p
    have := h (.str p)
    simpa [Store.read] using this
  have h2 : s2 = t2 := by
    funext p
    have := h (.int p)
    simpa [Store.read] using this
  have h3 : s3 = t3 := by
    funext p
    have := h (.bool p)
    simpa [Store.read] using this
  rw [h1, h2, h3]

/-- Two bindings that are not bound to one and the same variable can be applied
in either order. -/
theorem getVarsStep_comm (data : String → Option String) (a b : String × operatorConfig)
    (hab : a.2.var = none ∨ a.2.var ≠ b.2.var) (z : Store) :
    getVarsStep data (getVarsStep data z a) b = getVarsStep data (getVarsStep data z b) a := by
  rcases getVarsStep_uniform data a with ha | ⟨x, v, hx, hwa⟩
  · rw [ha, ha]
  · rcases getVarsStep_uniform data b with hb | ⟨x2, v2, hx2, hwb⟩
    · rw [hb, hb]
    · have hne : x ≠ x2 := by
        rintro rfl
        rcases hab with h | h
        · rw [hx] at h; cases h
        · exact h (hx.trans hx2.symm)
      apply Store_ext_read
      intro y
      rw [hwb, hwa, hwa, hwb]
      by_cases h1 : y = x
      · subst h1
        simp [hne]
      · simp [h1]

theorem getVars_perm (data : String → Option String) (s : Store)
    (vars vars2 : List (String × operatorConfig)) (hperm : vars.Perm vars2)
    (hd : DistinctVars vars) : getVars data vars s = getVars data vars2 s := by
  unfold getVars
  refine hperm.foldl_eq' ?_ s
  intro a ha b hb z
  by_cases hab : a = b
  · rw [hab]
  · have hsymm : Symmetric (fun a b : String × operatorConfig =>
        a.2.var = none ∨ a.2.var ≠ b.2.var) := by
      intro u w h
      rcases h with h | h
      · cases hw : w.2.var with
        | none => exact Or.inl rfl
        | some y => right; rw [h]; simp
      · exact Or.inr (fun e => h e.symm)
    exact getVarsStep_comm data a b (List.Pairwise.forall hsymm hd ha hb hab) z

/-- C20. For every data map, prior store and binding table whose keys are bound
to pairwise distinct variables: visiting the entries in any two orders (two
permutations of the table) leaves the same store, that is the same final value
of every variable. -/
theorem C20_getVars_order_independent (data : String → Option String) (s : Store)
    (vars vars2 : List (String × operatorConfig)) (hperm : vars.Perm vars2)
    (hd : DistinctVars vars) :
    getVars data vars s = getVars data vars2 s ∧
    ∀ x, (getVars data vars s).read x = (getVars data vars2 s).read x := by
  have h := getVars_perm data s vars vars2 hperm hd
  exact ⟨h, fun x => by rw [h]⟩

/-- Witness of C20: the table of `ApplyControllerConfigChange` visited in source
order and in reverse order. -/
theorem C20_getVars_order_independent_witness :
    DistinctVars configs.controllerVars ∧
    getVars (mapOf [("maxPipelineRun", "3"), ("enableMail", "true")]) configs.controllerVars
        zeroStore =
      getVars (mapOf [("maxPipelineRun", "3"), ("enableMail", "true")])
        configs.controllerVars.reverse zeroStore :=
  ⟨by decide,
    (C20_getVars_order_independent (mapOf [("maxPipelineRun", "3"), ("enableMail", "true")])
      zeroStore configs.controllerVars configs.controllerVars.reverse
      (List.reverse_perm _).symm (by decide)).1⟩

/-! ## Applying the same data again -/

theorem DistinctVars_perm {vars vars2 : List (String × operatorConfig)}
    (hperm : vars.Perm vars2) (hd : DistinctVars vars) : DistinctVars vars2 := by
  unfold DistinctVars at hd ⊢
  refine hd.perm hperm ?_
  intro u w h
  rcases h with h | h
  · cases hw : w.2.var with
    | none => exact Or.inl rfl
    | some y => right; rw [h]; simp
  · exact Or.inr (fun e => h e.symm)

/-- Two stores that agree on a variable, or meet an entry that assigns it, agree
on it after `getVars`. -/
theorem getVars_read_congr (data : String → Option String)
    (vars : List (String × operatorConfig)) (s t : Store) (y : Var)
    (h : s.read y = t.read y ∨
      ∃ e ∈ vars, ∃ v, ∀ u z, (getVarsStep data u e).read z = if z = y then v else u.read z) :
    (getVars data vars s).read y = (getVars data vars t).read y := by
  unfold getVars
  induction vars generalizing s t with
  | nil =>
    rcases h with h | ⟨e, he, _⟩
    · exact h
    · cases he
  | cons a l ih =>
    rw [List.foldl_cons, List.foldl_cons]
    apply ih
    rcases getVarsStep_uniform data a with hid | ⟨x, v, _, hw⟩
    · rw [hid s, hid t]
      rcases h with h | ⟨e, he, v2, hv2⟩
      · exact Or.inl h
      · rcases List.mem_cons.1 he with rfl | he2
        · left
          have h1 := hv2 s y
          have h2 := hv2 t y
          rw [hid s, if_pos rfl] at h1
          rw [hid t, if_pos rfl] at h2
          rw [h1, h2]
        · exact Or.inr ⟨e, he2, v2, hv2⟩
    · by_cases hyx : y = x
      · left
        rw [hw s y, hw t y, if_pos hyx, if_pos hyx]
      · rcases h with h | ⟨e, he, v2, hv2⟩
        · left
          rw [hw s y, hw t y, if_neg hyx, if_neg hyx]
          exact h
        · rcases List.mem_cons.1 he with rfl | he2
          · left
            have h1 := hv2 s y
            have h2 := hv2 t y
            rw [if_pos rfl] at h1 h2
            rw [h1, h2]
          · exact Or.inr ⟨e, he2, v2, hv2⟩

/-- Every variable either keeps its value through `getVars` or is assigned by
an entry of the table. -/
theorem getVars_read_or_written (data : String → Option String)
    (vars : List (String × operatorConfig)) (s : Store) (y : Var) :
    (getVars data vars s).read y = s.read y ∨
      ∃ e ∈ vars, ∃ v, ∀ u z, (getVarsStep data u e).read z = if z = y then v else u.read z := by
  by_cases h : ∃ e ∈ vars, ∃ v, ∀ u z,
      (getVarsStep data u e).read z = if z = y then v else u.read z
  · exact Or.inr h
  · left
    refine foldl_frame (getVarsStep data) (fun t => t.read y) vars s ?_
    intro e he t
    rcases getVarsStep_uniform data e with hid | ⟨x, v, _, hw⟩
    · simp only [hid t]
    · by_cases hyx : y = x
      · subst hyx
        exact absurd ⟨e, he, v, hw⟩ h
      · simp only [hw t y, if_neg hyx]

/-- Running `getVars` again with the same data and the same visiting order
changes nothing, whatever the table. -/
theorem getVars_idem (data : String → Option String)
    (vars : List (String × operatorConfig)) (s : Store) :
    getVars data vars (getVars data vars s) = getVars data vars s := by
  apply Store_ext_read
  intro y
  exact getVars_read_congr data vars (getVars data vars s) s y
    (getVars_read_or_written data vars s y)

/-- C21. For every data map, prior store and binding table whose keys are bound
to pairwise distinct variables: running `getVars` a second time with the same
data leaves the store, hence every bound variable, as the first run left it, in
whichever order the second run visits the table. So a second delivery of the
same resource to `ApplyControllerConfigChange` or to `Reconcile` changes no
setting. -/
theorem C21_getVars_idempotent (data : String → Option String) (s : Store)
    (vars vars2 order order2 rorder rorder2 : List (String × operatorConfig))
    (cm : ConfigMap) (st : configs.State) (rst : ReconcilerState)
    (hperm : vars.Perm vars2) (hd : DistinctVars vars)
    (ho : order.Perm configs.controllerVars) (ho2 : order2.Perm configs.controllerVars)
    (hr : rorder.Perm reconcileVars) (hr2 : rorder2.Perm reconcileVars) :
    getVars data vars (getVars data vars s) = getVars data vars s ∧
    getVars data vars2 (getVars data vars s) = getVars data vars s ∧
    (∀ x, (getVars data vars2 (getVars data vars s)).read x = (getVars data vars s).read x) ∧
    (configs.ApplyControllerConfigChange order2 cm
        (configs.ApplyControllerConfigChange order cm st).1).1.store =
      (configs.ApplyControllerConfigChange order cm st).1.store ∧
    (Reconcile rorder2 (some cm) (Reconcile rorder (some cm) rst).1).1.store =
      (Reconcile rorder (some cm) rst).1.store := by
  have again : ∀ (data : String → Option String) (s : Store)
      (vars vars2 : List (String × operatorConfig)), vars.Perm vars2 → DistinctVars vars →
      getVars data vars2 (getVars data vars s) = getVars data vars s := by
    intro data s vars vars2 hperm hd
    rw [← getVars_perm data (getVars data vars s) vars vars2 hperm hd]
    exact getVars_idem data vars s
  refine ⟨getVars_idem data vars s, again data s vars vars2 hperm hd, ?_, ?_, ?_⟩
  · intro x
    rw [again data s vars vars2 hperm hd]
  · rw [ApplyControllerConfigChange_store, ApplyControllerConfigChange_store]
    exact again cm.Data st.store order order2 (ho.trans ho2.symm)
      (DistinctVars_perm ho.symm (by decide))
  · rw [Reconcile_store, Reconcile_store]
    exact again cm.Data rst.store rorder rorder2 (hr.trans hr2.symm)
      (DistinctVars_perm hr.symm (by decide))

/-- Witness of C21: the table of `ApplyControllerConfigChange`, visited in source
order and then in reverse order, on data that sets two fields. -/
theorem C21_getVars_idempotent_witness :
    DistinctVars configs.controllerVars ∧
    getVars (mapOf [("maxPipelineRun", "3"), ("enableMail", "true")])
        configs.controllerVars.reverse
        (getVars (mapOf [("maxPipelineRun", "3"), ("enableMail", "true")])
          configs.controllerVars zeroStore) =
      getVars (mapOf [("maxPipelineRun", "3"), ("enableMail", "true")])
        configs.controllerVars zeroStore :=
  ⟨by decide,
    (C21_getVars_idempotent (mapOf [("maxPipelineRun", "3"), ("enableMail", "true")]) zeroStore
      configs.controllerVars configs.controllerVars.reverse configs.controllerVars
      configs.controllerVars reconcileVars reconcileVars
      { Name := "cicd-config", ResourceVersion := "1",
        Data := mapOf [("maxPipelineRun", "3"), ("enableMail", "true")] }
      configs.freshState freshReconciler (List.reverse_perm _).symm (by decide)
      (List.Perm.refl _) (List.Perm.refl _) (List.Perm.refl _) (List.Perm.refl _)).2.1⟩

section
open fake

/-- On an existing repository the operations do their work: a registered webhook
is listed and can be deleted again, a commit status and a comment are stored,
and the pull request is found. -/
theorem fake_operations_on_existing_repository :
    Client.ListWebhook { Repository := "tmax/cicd" } [42]
        (Client.RegisterWebhook { Repository := "tmax/cicd" } "http://hook" 42
          (demoState [])).1 = ([{ ID := 42, URL := "http://hook" }], none) ∧
    Client.ListWebhook { Repository := "tmax/cicd" } [42]
        (Client.DeleteWebhook { Repository := "tmax/cicd" } 42
          (Client.RegisterWebhook { Repository := "tmax/cicd" } "http://hook" 42
            (demoState [])).1).1 = ([], none) ∧
    Client.ListCommitStatuses { Repository := "tmax/cicd" } "abc"
        (Client.SetCommitStatus { Repository := "tmax/cicd" } "abc" "success"
          (demoState [])).1 = (["success"], none) ∧
    Client.ListCommitStatuses { Repository := "tmax/cicd" } "abc" (demoState []) =
      ([], some "404 no such ref") ∧
    Client.GetPullRequest { Repository := "tmax/cicd" } 1 (demoState []) = (some 0, none) ∧
    Client.ListPullRequests { Repository := "tmax/cicd" } [1] (demoState []) =
      ([{ ID := 1, Labels := [] }], none) ∧
    Client.CanUserWriteToRepo { Repository := "tmax/cicd" } { Name := "dev" } (demoState []) =
      (false, some "404 no such user") := by
  decide

/-- C22. When the repository of the client is not a key of `Repos`, each of
`ListWebhook`, `RegisterWebhook`, `DeleteWebhook`, `ListCommitStatuses`,
`SetCommitStatus`, `CanUserWriteToRepo`, `RegisterComment`, `ListPullRequests`,
`GetPullRequest`, `SetLabel` and `DeleteLabel` returns the error
`404 no such repository`, for all its arguments; the operations that can write
leave the whole package state (`Repos`, `Users` and the pull request objects) as
it was, and the listing and lookup operations have no effect on it at all. -/
theorem C22_missing_repository_is_an_error (c : Client) (st : fake.State)
    (h : st.Repos c.Repository = none) :
    (∀ keys, (c.ListWebhook keys st).2 = some "404 no such repository") ∧
    (∀ url id, (c.RegisterWebhook url id st).2 = some "404 no such repository" ∧
      (c.RegisterWebhook url id st).1 = st) ∧
    (∀ id, (c.DeleteWebhook id st).2 = some "404 no such repository" ∧
      (c.DeleteWebhook id st).1 = st) ∧
    (∀ ref, (c.ListCommitStatuses ref st).2 = some "404 no such repository") ∧
    (∀ sha status, (c.SetCommitStatus sha status st).2 = some "404 no such repository" ∧
      (c.SetCommitStatus sha status st).1 = st) ∧
    (∀ user, (c.CanUserWriteToRepo user st).2 = some "404 no such repository") ∧
    (∀ issueNo body, (c.RegisterComment issueNo body st).2 = some "404 no such repository" ∧
      (c.RegisterComment issueNo body st).1 = st) ∧
    (∀ keys, (c.ListPullRequests keys st).2 = some "404 no such repository") ∧
    (∀ id, (c.GetPullRequest id st).2 = some "404 no such repository") ∧
    (∀ id label, (c.SetLabel id label st).2 = some "404 no such repository" ∧
      (c.SetLabel id label st).1 = st) ∧
    (∀ id label, (c.DeleteLabel id label st).2 = some "404 no such repository" ∧
      (c.DeleteLabel id label st).1 = st) := by
  refine ⟨?_, ?_, ?_, ?_, ?_, ?_, ?_, ?_, ?_, ?_, ?_⟩
  · intro keys; simp [Client.ListWebhook, h]
  · intro url id; simp [Client.RegisterWebhook, h]
  · intro id; simp [Client.DeleteWebhook, h]
  · intro ref; simp [Client.ListCommitStatuses, h]
  · intro sha status; simp [Client.SetCommitStatus, h]
  · intro user; simp [Client.CanUserWriteToRepo, h]
  · intro issueNo body; simp [Client.RegisterComment, h]
  · intro keys; simp [Client.ListPullRequests, h]
  · intro id; simp [Client.GetPullRequest, h]
  · intro id label; simp [Client.SetLabel, h]
  · intro id label; simp [Client.DeleteLabel, DeleteLabel, h]

/-- Witness of C22: a client for the unknown repository `tmax/none` on a state
whose only repository is `tmax/cicd`. -/
theorem C22_missing_repository_is_an_error_witness :
    (Client.RegisterWebhook { Repository := "tmax/none" } "http://hook" 42 (demoState [])).2 =
      some "404 no such repository" ∧
    (Client.RegisterWebhook { Repository := "tmax/none" } "http://hook" 42 (demoState [])).1 =
      demoState [] ∧
    (Client.GetPullRequest { Repository := "tmax/none" } 1 (demoState [])).2 =
      some "404 no such repository" :=
  have h := C22_missing_repository_is_an_error { Repository := "tmax/none" } (demoState []) rfl
  ⟨(h.2.1 "http://hook" 42).1, (h.2.1 "http://hook" 42).2, h.2.2.2.2.2.2.2.2.1 1⟩

end

end CicdOperator
